import Mathlib

/-!
# Traffic-tag picker of the Consul gRPC resolver

A shallow embedding of `traffic_picker.go`: the parsing of the call metadata key
`x-traffic-tag` into a tag-to-weight map (`trafficTagsFromContext`), the scoring loop of
`trafficPicker.Pick`, the round-robin path `pickRoundRobin`, and the builder
`trafficPickerBuilder.Build`. The address normalisation of the resolver is modelled from
its specification.

Modelling conventions.
* A Go `string` is a Lean `String`; the byte-level split on the one-byte separator `","`
  coincides with the character-level split.
* `map[string]uint16` is an association list with overwrite-on-assign (`TagMap`); a missing
  key reads as the zero value `0`, and the `nil` map is the empty list.
* `int32` is an `Int` kept in range by `wrapInt32`; Go's `%` is truncated division
  (`Int.tmod`), so a negative dividend gives a non-positive remainder.
* `uint16` values are `Nat` reduced modulo `2 ^ 16`.
* `int` (the score accumulator) is 32 or 64 bits wide, by the platform. `currPriorityInt`,
  `pickLoopInt` and `PickInt` take the width as `bits` and wrap every addition to it;
  `currPriority`, `pickLoop` and `Pick` are the same loops with exact addition. A score is
  at most `2 ^ 15` times the number of tags of a connection, so the two agree as long as
  every connection advertises fewer than `2 ^ 16` tags (`PickInt_eq_Pick`).
* The picker is mutable through its cursor only; `Pick` returns the outcome together with
  the picker after the call.
-/

namespace Consul

/-! ## Go library functions used by the picker -/

/-- Go `unicode.IsSpace`: the Unicode White_Space code points. -/
def isSpace (c : Char) : Bool :=
  c = '\t' || c = '\n' || c.val = 0x0B || c.val = 0x0C || c = '\r' || c = ' ' ||
  c.val = 0x85 || c.val = 0xA0 || c.val = 0x1680 ||
  (0x2000 ≤ c.val && c.val ≤ 0x200A) ||
  c.val = 0x2028 || c.val = 0x2029 || c.val = 0x202F || c.val = 0x205F || c.val = 0x3000

/-- Go `strings.TrimSpace` on the characters of a string: leading and trailing white
space removed. -/
def trimSpaceChars (cs : List Char) : List Char :=
  ((cs.dropWhile isSpace).reverse.dropWhile isSpace).reverse

/-- Go `strings.TrimSpace`. -/
def TrimSpace (s : String) : String :=
  ⟨trimSpaceChars s.data⟩

/-- Splitting a character list at every occurrence of `sep`; an input without a separator
gives one piece, the empty input gives one empty piece. -/
def splitChars (sep : Char) : List Char → List (List Char)
  | [] => [[]]
  | c :: cs =>
    if c = sep then [] :: splitChars sep cs
    else
      match splitChars sep cs with
      | [] => [[c]]
      | piece :: pieces => (c :: piece) :: pieces

/-- Go `strings.SplitSeq` for a one-character separator: all substrings of `s` separated
by `sep`, in order. -/
def SplitSeq (s : String) (sep : Char) : List String :=
  (splitChars sep s.data).map String.mk

/-! ## Call metadata -/

/-- Go `metadata.MD`, a `map[string][]string`, as an association list. -/
abbrev MD := List (String × List String)

/-- The part of `context.Context` that the picker reads: the outgoing metadata, when
present. -/
structure Context where
  outgoing : Option MD
deriving Repr

/-- Go `metadata.FromOutgoingContext`: the metadata and whether there is any. -/
def FromOutgoingContext (ctx : Context) : Option MD :=
  ctx.outgoing

/-- Go `metadata.NewOutgoingContext(context.Background(), metadata.Pairs(k, v))`. -/
def NewOutgoingContext (k v : String) : Context :=
  ⟨some [(k, [v])]⟩

/-- Go `context.Background()`: a context without outgoing metadata. -/
def Background : Context :=
  ⟨none⟩

/-! ## The tag-to-weight map -/

/-- Go `map[string]uint16`. -/
abbrev TagMap := List (String × Nat)

/-- Map assignment `m[k] = v`: overwrites the entry of `k` when there is one. -/
def TagMap.set : TagMap → String → Nat → TagMap
  | [], k, v => [(k, v)]
  | (k0, v0) :: rest, k, v =>
    if k0 = k then (k, v) :: rest else (k0, v0) :: TagMap.set rest k v

/-- Map read `m[k]`: the zero value for a missing key. -/
def TagMap.get : TagMap → String → Nat
  | [], _ => 0
  | (k0, v0) :: rest, k => if k0 = k then v0 else TagMap.get rest k

/-- The keys of the map. -/
def TagMap.keys (m : TagMap) : List String :=
  m.map Prod.fst

/-- The tag list built by the two nested loops of `trafficTagsFromContext`: every entry is
split on commas, each piece is trimmed, and the non-empty ones are appended in order. -/
def collectTags (tags : List String) : List String :=
  tags.flatMap fun entry =>
    ((SplitSeq entry ',').map TrimSpace).filter fun trimmed => trimmed ≠ ""

/-- The loop `for i, tag := range tagList { tagPriorities[tag] = 1 << (len(tagList) - i - 1) }`
from index `i` on, with `n = len(tagList)`; the shift is a `uint16` shift. -/
def assignPriorities (n : Nat) : Nat → List String → TagMap → TagMap
  | _, [], m => m
  | i, tag :: rest, m =>
    assignPriorities n (i + 1) rest (m.set tag ((1 <<< (n - i - 1)) % 2 ^ 16))

/-- Go `trafficTagsFromContext`. -/
def trafficTagsFromContext (ctx : Context) : TagMap :=
  match FromOutgoingContext ctx with
  | none => []
  | some md =>
    match md.lookup "x-traffic-tag" with
    | none => []
    | some tags =>
      if tags.length = 0 then []
      else
        let tagList := collectTags tags
        let tagList := tagList.take (min 16 tagList.length)
        assignPriorities tagList.length 0 tagList []

/-! ## The picker -/

/-- A connection handle (`balancer.SubConn`); the identity of the handle is its `id`. -/
structure SubConn where
  id : String
deriving DecidableEq, Repr

/-- Go `subConnWithTags`. -/
structure subConnWithTags where
  conn : SubConn
  tags : List String
deriving DecidableEq, Repr

/-- Go `trafficPicker`; `next` is an `int32`. -/
structure trafficPicker where
  subConns : List subConnWithTags
  next : Int
deriving DecidableEq, Repr

/-- Go `balancer.PickResult`; `SubConn` is `none` for the nil interface value. -/
structure PickResult where
  SubConn : Option SubConn
deriving DecidableEq, Repr

/-- What a call of `Pick` does: return a result with a nil error, return the error
`balancer.ErrNoSubConnAvailable`, or stop with the run-time error "index out of range". -/
inductive PickOutcome where
  | ok (res : PickResult)
  | ErrNoSubConnAvailable
  | panicIndexOutOfRange
deriving DecidableEq, Repr

/-- Two's-complement wrap-around of an `int32` result. -/
def wrapInt32 (x : Int) : Int :=
  (x + 2 ^ 31) % 2 ^ 32 - 2 ^ 31

/-- Go `atomic.AddInt32(addr, delta)`: the new value, which is also stored. -/
def AddInt32 (v delta : Int) : Int :=
  wrapInt32 (v + delta)

/-- The inner loop of `Pick`: `currPriority += int(tagPriority[tag])` over the tags of one
connection, with exact addition; `currPriorityInt` is the same loop in a machine integer. -/
def currPriority (tagPriority : TagMap) (tags : List String) : Nat :=
  tags.foldl (fun acc tag => acc + tagPriority.get tag) 0

/-- The outer loop of `Pick` from the state `(maxPriority, pickedConn)`. -/
def pickLoop (tagPriority : TagMap) :
    List subConnWithTags → Nat → Option SubConn → Nat × Option SubConn
  | [], maxPriority, pickedConn => (maxPriority, pickedConn)
  | sc :: rest, maxPriority, pickedConn =>
    if maxPriority < currPriority tagPriority sc.tags then
      pickLoop tagPriority rest (currPriority tagPriority sc.tags) (some sc.conn)
    else
      pickLoop tagPriority rest maxPriority pickedConn

/-- Go `trafficPicker.pickRoundRobin`: the outcome and the picker after the call. -/
def pickRoundRobin (p : trafficPicker) : PickOutcome × trafficPicker :=
  if p.subConns.length = 0 then
    (PickOutcome.ErrNoSubConnAvailable, p)
  else
    let i := AddInt32 p.next 1
    let idx := Int.tmod i (p.subConns.length : Int)
    let p1 : trafficPicker := { p with next := i }
    if idx < 0 then (PickOutcome.panicIndexOutOfRange, p1)
    else
      match p.subConns[idx.toNat]? with
      | some sc => (PickOutcome.ok ⟨some sc.conn⟩, p1)
      | none => (PickOutcome.panicIndexOutOfRange, p1)

/-- Go `trafficPicker.Pick`: the outcome and the picker after the call. -/
def Pick (p : trafficPicker) (ctx : Context) : PickOutcome × trafficPicker :=
  let tagPriority := trafficTagsFromContext ctx
  if tagPriority.length = 0 then
    pickRoundRobin p
  else
    (PickOutcome.ok ⟨(pickLoop tagPriority p.subConns 0 none).2⟩, p)

/-- The loop of the round-robin test: `k` sequential calls of `Pick` with the same context;
the outcomes in call order and the picker afterwards. A run-time error ends the sequence. -/
def pickMany (ctx : Context) : Nat → trafficPicker → List PickOutcome × trafficPicker
  | 0, p => ([], p)
  | k + 1, p =>
    let r := Pick p ctx
    if r.1 = PickOutcome.panicIndexOutOfRange then ([r.1], r.2)
    else
      let rs := pickMany ctx k r.2
      (r.1 :: rs.1, rs.2)

/-! ## The score in a machine integer -/

/-- Two's-complement wrap-around of a Go `int` of `bits` bits: 32 on `GOARCH=386` and
`arm`, 64 on `amd64` and `arm64`. -/
def wrapInt (bits : Nat) (x : Int) : Int :=
  (x + 2 ^ (bits - 1)) % 2 ^ bits - 2 ^ (bits - 1)

/-- The inner loop of `Pick` with `currPriority` a Go `int` of `bits` bits:
`currPriority += int(tagPriority[tag])` over the tags of one connection. -/
def currPriorityInt (bits : Nat) (tagPriority : TagMap) (tags : List String) : Int :=
  tags.foldl (fun acc tag => wrapInt bits (acc + (tagPriority.get tag : Int))) 0

/-- The outer loop of `Pick` from the state `(maxPriority, pickedConn)`, with
`maxPriority` and `currPriority` Go `int`s of `bits` bits. -/
def pickLoopInt (bits : Nat) (tagPriority : TagMap) :
    List subConnWithTags → Int → Option SubConn → Int × Option SubConn
  | [], maxPriority, pickedConn => (maxPriority, pickedConn)
  | sc :: rest, maxPriority, pickedConn =>
    if maxPriority < currPriorityInt bits tagPriority sc.tags then
      pickLoopInt bits tagPriority rest (currPriorityInt bits tagPriority sc.tags)
        (some sc.conn)
    else
      pickLoopInt bits tagPriority rest maxPriority pickedConn

/-- Go `trafficPicker.Pick` on a platform whose `int` has `bits` bits: the outcome and the
picker after the call. -/
def PickInt (bits : Nat) (p : trafficPicker) (ctx : Context) : PickOutcome × trafficPicker :=
  let tagPriority := trafficTagsFromContext ctx
  if tagPriority.length = 0 then
    pickRoundRobin p
  else
    (PickOutcome.ok ⟨(pickLoopInt bits tagPriority p.subConns 0 none).2⟩, p)

/-! ## The picker builder -/

/-- A value stored in `attributes.Attributes`, as far as `Build` tells values apart: a
`[]string`, or a value of any other dynamic type. -/
inductive AttrValue where
  | strings (v : List String)
  | other
deriving DecidableEq, Repr

/-- Go `*attributes.Attributes`, a key-value store; the nil pointer is the empty list. -/
abbrev Attributes := List (String × AttrValue)

/-- Go `(*Attributes).Value(key)`: the value of the key, `none` for the nil interface
value that a missing key gives. -/
def Attributes.Value (a : Attributes) (key : String) : Option AttrValue :=
  a.lookup key

/-- Go `resolver.Address`, with the fields that the picker and the resolver read. -/
structure Address where
  Addr : String
  BalancerAttributes : Attributes
deriving DecidableEq, Repr

/-- Go `base.SubConnInfo`. -/
structure SubConnInfo where
  Address : Address
deriving DecidableEq, Repr

/-- Go `base.PickerBuildInfo`; the map `ReadySCs` is given by its entries in the order in
which `range` visits them. -/
structure PickerBuildInfo where
  ReadySCs : List (SubConn × SubConnInfo)
deriving Repr

/-- The type assertion `v.([]string)` in its two-result form: the list when the value is
one, the nil slice otherwise. -/
def assertStrings : Option AttrValue → List String
  | some (AttrValue.strings v) => v
  | _ => []

/-- Go `rand.Int31`, `int32(r.Int63() >> 32)`, from the 63-bit sample of the source. -/
def Int31 (int63 : Nat) : Int :=
  (((int63 % 2 ^ 63) >>> 32 : Nat) : Int)

/-- Go `trafficPickerBuilder.Build`; `int63` is the sample that `rand.Int31` draws. -/
def Build (info : PickerBuildInfo) (int63 : Nat) : trafficPicker :=
  { subConns := info.ReadySCs.map fun e =>
      { conn := e.1, tags := assertStrings (e.2.Address.BalancerAttributes.Value "tags") }
    next := Int31 int63 }

/-! ## The address list handed to the connection management -/

/-- Modelled from the spec: `populateEndpoints` is not among the sources, only its test
is. For one address list received it calls `UpdateState` once; this is the list of address
strings it hands over: the input deduplicated and sorted lexicographically by address
string (sections 3, 4.2 and 8 of the specification). -/
def populateEndpoints (input : List String) : List String :=
  (input.dedup).insertionSort fun a b => a.data ≤ b.data

/-! ## Fixtures of `traffic_picker_test.go` -/

/-- The connection list of `TestTrafficPicker_TagPriority`. -/
def tagPrioritySubConns : List subConnWithTags :=
  [⟨⟨"A"⟩, ["high"]⟩, ⟨⟨"B"⟩, ["low"]⟩, ⟨⟨"C"⟩, ["low", "high"]⟩]

/-- The connection list of `TestTrafficPicker_NoMetadata_RoundRobin`. -/
def roundRobinSubConns : List subConnWithTags :=
  [⟨⟨"A"⟩, []⟩, ⟨⟨"B"⟩, []⟩]

/-- The connection list of `TestTrafficPicker_OnlyOneTagMatch`. -/
def oneTagMatchSubConns : List subConnWithTags :=
  [⟨⟨"A"⟩, ["x"]⟩, ⟨⟨"B"⟩, ["y"]⟩]

/-- The outgoing context `metadata.Pairs("x-traffic-tag", v)` of the tests. -/
def tagContext (v : String) : Context :=
  NewOutgoingContext "x-traffic-tag" v

/-- A request of sixteen distinct tags; the first, `a`, weighs `2 ^ 15`. -/
def sixteenTags : String :=
  "a,b,c,d,e,f,g,h,i,j,k,l,m,n,o,p"

/-- A tag list that names the tag `a` 65536 times. -/
def longTagList : List String :=
  List.replicate 65536 "a"

/-- Two connections: `B`, tagged `[a]`, listed before `A`, tagged with 65536 times `a`. -/
def longTagSubConns : List subConnWithTags :=
  [⟨⟨"B"⟩, ["a"]⟩, ⟨⟨"A"⟩, longTagList⟩]

/-- A request of seventeen distinct tags, one more than the cap keeps. -/
def seventeenTags : String :=
  "a,b,c,d,e,f,g,h,i,j,k,l,m,n,o,p,q"

/-- Two ready connections: `A` with the attribute `tags = [x, y]`, `B` without attributes. -/
def twoReadySCs : List (SubConn × SubConnInfo) :=
  [(⟨"A"⟩, ⟨⟨"10.0.0.1:80", [("tags", AttrValue.strings ["x", "y"])]⟩⟩),
   (⟨"B"⟩, ⟨⟨"10.0.0.2:80", []⟩⟩)]

/-! ## Auxiliary definitions for the proofs -/

/-- The weight that position decides: the tag at position `j` of a list of length `n`
weighs `2 ^ (n - 1 - j)`, a tag outside the list weighs nothing. -/
def posWeight : List String → String → Nat
  | [], _ => 0
  | t0 :: rest, t => if t0 = t then 2 ^ rest.length else posWeight rest t

/-- The requested tags that a connection advertises, read as a binary number: the tag at
position `j` of the request list contributes bit `n - 1 - j`. -/
def overlapBits : List String → List String → Nat
  | [], _ => 0
  | t0 :: rest, adv => (if t0 ∈ adv then 2 ^ rest.length else 0) + overlapBits rest adv

/-! ## Lemmas on the map -/

theorem TagMap.get_set_self (m : TagMap) (k : String) (v : Nat) :
    (m.set k v).get k = v := by
  induction m with
  | nil => simp [TagMap.set, TagMap.get]
  | cons e rest ih =>
    obtain ⟨k0, v0⟩ := e
    by_cases h : k0 = k
    · simp [TagMap.set, TagMap.get, h]
    · simp [TagMap.set, TagMap.get, h, ih]

theorem TagMap.get_set_of_ne (m : TagMap) (k t : String) (v : Nat) (h : k ≠ t) :
    (m.set k v).get t = m.get t := by
  induction m with
  | nil => simp [TagMap.set, TagMap.get, h]
  | cons e rest ih =>
    obtain ⟨k0, v0⟩ := e
    by_cases h0 : k0 = k
    · subst h0
      simp [TagMap.set, TagMap.get, h]
    · by_cases h1 : k0 = t
      · subst h1
        simp [TagMap.set, TagMap.get, h0]
      · simp [TagMap.set, TagMap.get, h0, h1, ih]

theorem TagMap.get_of_not_mem_keys (m : TagMap) (t : String) (h : t ∉ m.keys) :
    m.get t = 0 := by
  induction m with
  | nil => simp [TagMap.get]
  | cons e rest ih =>
    obtain ⟨k0, v0⟩ := e
    simp only [TagMap.keys, List.map_cons, List.mem_cons, not_or] at h
    have h0 : k0 ≠ t := fun hk => h.1 hk.symm
    simp only [TagMap.get, h0, if_false]
    exact ih h.2

theorem TagMap.keys_set_of_mem (m : TagMap) (k : String) (v : Nat) (h : k ∈ m.keys) :
    (m.set k v).keys = m.keys := by
  induction m with
  | nil => simp [TagMap.keys] at h
  | cons e rest ih =>
    obtain ⟨k0, v0⟩ := e
    by_cases h0 : k0 = k
    · simp [TagMap.set, TagMap.keys, h0]
    · have hr : k ∈ TagMap.keys rest := by
        simp only [TagMap.keys, List.map_cons, List.mem_cons] at h
        rcases h with h | h
        · exact absurd h.symm h0
        · exact h
      have := ih hr
      simp only [TagMap.keys] at this
      simp [TagMap.set, TagMap.keys, h0, this]

theorem TagMap.keys_set_of_not_mem (m : TagMap) (k : String) (v : Nat) (h : k ∉ m.keys) :
    (m.set k v).keys = m.keys ++ [k] := by
  induction m with
  | nil => simp [TagMap.set, TagMap.keys]
  | cons e rest ih =>
    obtain ⟨k0, v0⟩ := e
    simp only [TagMap.keys, List.map_cons, List.mem_cons, not_or] at h
    have h0 : k0 ≠ k := fun hk => h.1 hk.symm
    have := ih h.2
    simp only [TagMap.keys] at this
    simp [TagMap.set, TagMap.keys, h0, this]

theorem TagMap.length_set_pos (m : TagMap) (k : String) (v : Nat) :
    0 < (m.set k v).length := by
  cases m with
  | nil => simp [TagMap.set]
  | cons e rest =>
    obtain ⟨k0, v0⟩ := e
    by_cases h0 : k0 = k <;> simp [TagMap.set, h0]

theorem TagMap.length_le_length_set (m : TagMap) (k : String) (v : Nat) :
    m.length ≤ (m.set k v).length := by
  induction m with
  | nil => simp
  | cons e rest ih =>
    obtain ⟨k0, v0⟩ := e
    by_cases h0 : k0 = k
    · simp [TagMap.set, h0]
    · simpa [TagMap.set, h0] using ih

/-! ## Lemmas on the weight assignment -/

theorem length_le_length_assignPriorities (n : Nat) (l : List String) :
    ∀ (i : Nat) (m : TagMap), m.length ≤ (assignPriorities n i l m).length := by
  induction l with
  | nil => intro i m; simp [assignPriorities]
  | cons t rest ih =>
    intro i m
    simp only [assignPriorities]
    exact le_trans (TagMap.length_le_length_set m t _) (ih (i + 1) _)

theorem assignPriorities_length_pos (n i : Nat) (l : List String) (m : TagMap)
    (h : l ≠ []) : 0 < (assignPriorities n i l m).length := by
  cases l with
  | nil => exact absurd rfl h
  | cons t rest =>
    simp only [assignPriorities]
    exact lt_of_lt_of_le (TagMap.length_set_pos m t _)
      (length_le_length_assignPriorities n rest (i + 1) _)

theorem shift_weight_eq (n i r : Nat) (hn : n = i + (r + 1)) (h16 : n ≤ 16) :
    (1 <<< (n - i - 1)) % 2 ^ 16 = 2 ^ r := by
  have h1 : n - i - 1 = r := by omega
  rw [h1, Nat.one_shiftLeft]
  apply Nat.mod_eq_of_lt
  exact Nat.pow_lt_pow_right (by norm_num) (by omega)

theorem get_assignPriorities (n : Nat) (h16 : n ≤ 16) (l : List String) :
    ∀ (i : Nat) (m : TagMap), n = i + l.length → l.Nodup → ∀ t : String,
      (assignPriorities n i l m).get t = if t ∈ l then posWeight l t else m.get t := by
  induction l with
  | nil => intro i m _ _ t; simp [assignPriorities]
  | cons t0 rest ih =>
    intro i m hn hnd t
    have hnd2 := List.nodup_cons.mp hnd
    simp only [assignPriorities]
    rw [ih (i + 1) _ (by simp only [List.length_cons] at hn; omega) hnd2.2 t]
    rw [shift_weight_eq n i rest.length (by simpa using hn) h16]
    by_cases ht : t0 = t
    · subst ht
      simp [hnd2.1, posWeight, TagMap.get_set_self]
    · have ht2 : ¬ t = t0 := fun h => ht h.symm
      by_cases hr : t ∈ rest
      · simp [hr, posWeight, ht]
      · simp [hr, posWeight, ht, ht2, TagMap.get_set_of_ne m t0 t _ ht]

theorem keys_assignPriorities (n : Nat) (l : List String) :
    ∀ (i : Nat) (m : TagMap), l.Nodup → (∀ t ∈ l, t ∉ m.keys) →
      (assignPriorities n i l m).keys = m.keys ++ l := by
  induction l with
  | nil => intro i m _ _; simp [assignPriorities]
  | cons t0 rest ih =>
    intro i m hnd hdis
    have hnd2 := List.nodup_cons.mp hnd
    simp only [assignPriorities]
    have hk := TagMap.keys_set_of_not_mem m t0 ((1 <<< (n - i - 1)) % 2 ^ 16)
      (hdis t0 (List.mem_cons_self _ _))
    rw [ih (i + 1) _ hnd2.2, hk]
    · simp
    · intro t ht
      rw [hk]
      simp only [List.mem_append, List.mem_singleton, not_or]
      refine ⟨hdis t (List.mem_cons_of_mem _ ht), ?_⟩
      intro h
      exact hnd2.1 (h ▸ ht)

theorem trafficTagsFromContext_of_lookup (md : MD) (values ts : List String)
    (hmd : md.lookup "x-traffic-tag" = some values) (hts : collectTags values = ts)
    (h16 : ts.length ≤ 16) :
    trafficTagsFromContext ⟨some md⟩ = assignPriorities ts.length 0 ts [] := by
  subst hts
  simp only [trafficTagsFromContext, FromOutgoingContext, hmd]
  by_cases hv : values.length = 0
  · have : values = [] := List.length_eq_zero.mp hv
    subst this
    simp [collectTags, assignPriorities]
  · simp only [hv, if_false]
    have hmin : min 16 (collectTags values).length = (collectTags values).length :=
      Nat.min_eq_right h16
    rw [hmin, List.take_length]

theorem posWeight_of_not_mem (l : List String) (t : String) (h : t ∉ l) :
    posWeight l t = 0 := by
  induction l with
  | nil => rfl
  | cons a r ih =>
    simp only [List.mem_cons, not_or] at h
    have ha : ¬ a = t := fun e => h.1 e.symm
    simp [posWeight, ha, ih h.2]

theorem trafficTags_get_eq_posWeight (md : MD) (values ts : List String)
    (hmd : md.lookup "x-traffic-tag" = some values) (hts : collectTags values = ts)
    (hnd : ts.Nodup) (h16 : ts.length ≤ 16) (t : String) :
    (trafficTagsFromContext ⟨some md⟩).get t = posWeight ts t := by
  rw [trafficTagsFromContext_of_lookup md values ts hmd hts h16,
    get_assignPriorities ts.length h16 ts 0 [] (by simp) hnd t]
  by_cases ht : t ∈ ts
  · simp [ht]
  · simp [ht, posWeight_of_not_mem ts t ht, TagMap.get]

theorem posWeight_getElem (l : List String) (hnd : l.Nodup) :
    ∀ (j : Nat) (hj : j < l.length), posWeight l l[j] = 2 ^ (l.length - 1 - j) := by
  induction l with
  | nil => intro j hj; simp at hj
  | cons a r ih =>
    intro j hj
    have hnd2 := List.nodup_cons.mp hnd
    cases j with
    | zero => simp [posWeight]
    | succ j =>
      have hj2 : j < r.length := by simpa using hj
      have hne : ¬ a = r[j] := fun e => hnd2.1 (e ▸ List.getElem_mem hj2)
      simp only [List.getElem_cons_succ, posWeight, hne, if_false, List.length_cons]
      rw [ih hnd2.2 j hj2]
      congr 1
      omega

/-! ## Lemmas on the score -/

theorem foldl_add_eq (f : String → Nat) (l : List String) :
    ∀ a : Nat, l.foldl (fun acc tag => acc + f tag) a = a + (l.map f).sum := by
  induction l with
  | nil => intro a; simp
  | cons t r ih => intro a; simp [List.foldl, ih, Nat.add_assoc]

theorem currPriority_eq_sum (m : TagMap) (tags : List String) :
    currPriority m tags = (tags.map m.get).sum := by
  simp [currPriority, foldl_add_eq]

theorem sum_indicator_of_nodup (t0 : String) (c : Nat) (l : List String) (hnd : l.Nodup) :
    (l.map fun t => if t0 = t then c else 0).sum = if t0 ∈ l then c else 0 := by
  induction l with
  | nil => simp
  | cons a r ih =>
    have hnd2 := List.nodup_cons.mp hnd
    rw [List.map_cons, List.sum_cons, ih hnd2.2]
    by_cases h : t0 = a
    · subst h
      simp [hnd2.1]
    · have h2 : ¬ a = t0 := fun e => h e.symm
      by_cases hr : t0 ∈ r <;> simp [h, hr]

theorem sum_posWeight_eq_overlapBits (ts : List String) (hts : ts.Nodup)
    (adv : List String) (hadv : adv.Nodup) :
    (adv.map (posWeight ts)).sum = overlapBits ts adv := by
  induction ts with
  | nil =>
    have : adv.map (posWeight []) = adv.map fun _ => 0 := by
      apply List.map_congr_left
      intro t _
      rfl
    rw [this]
    simp [overlapBits]
  | cons t0 r ih =>
    have hnd2 := List.nodup_cons.mp hts
    have hsplit : adv.map (posWeight (t0 :: r)) =
        adv.map fun t => (if t0 = t then 2 ^ r.length else 0) + posWeight r t := by
      apply List.map_congr_left
      intro t _
      by_cases h : t0 = t
      · subst h
        simp [posWeight, posWeight_of_not_mem r t0 hnd2.1]
      · simp [posWeight, h]
    rw [hsplit, List.sum_map_add, sum_indicator_of_nodup t0 _ adv hadv, ih hnd2.2]
    rfl

theorem overlapBits_lt (ts adv : List String) : overlapBits ts adv < 2 ^ ts.length := by
  induction ts with
  | nil => simp [overlapBits]
  | cons t0 r ih =>
    simp only [overlapBits, List.length_cons, pow_succ]
    split <;> omega

theorem overlapBits_eq_iff (ts : List String) (hts : ts.Nodup) (a b : List String) :
    overlapBits ts a = overlapBits ts b ↔ ∀ t ∈ ts, (t ∈ a ↔ t ∈ b) := by
  induction ts with
  | nil => simp [overlapBits]
  | cons t0 r ih =>
    have hnd2 := List.nodup_cons.mp hts
    have ha := overlapBits_lt r a
    have hb := overlapBits_lt r b
    simp only [overlapBits, List.mem_cons, forall_eq_or_imp]
    rw [← ih hnd2.2]
    by_cases h1 : t0 ∈ a <;> by_cases h2 : t0 ∈ b <;> simp [h1, h2] <;> omega

theorem overlapBits_ge (adv : List String) (ts : List String) :
    ∀ (i : Nat) (hi : i < ts.length), ts[i] ∈ adv →
      2 ^ (ts.length - 1 - i) ≤ overlapBits ts adv := by
  induction ts with
  | nil => intro i hi; simp at hi
  | cons t0 r ih =>
    intro i hi hmem
    cases i with
    | zero =>
      have h0 : t0 ∈ adv := by simpa using hmem
      simp [overlapBits, h0]
    | succ i =>
      have hi2 : i < r.length := by simpa using hi
      have hmem2 : r[i] ∈ adv := by simpa using hmem
      have := ih i hi2 hmem2
      have he : (t0 :: r).length - 1 - (i + 1) = r.length - 1 - i := by
        simp only [List.length_cons]; omega
      rw [he]
      simp only [overlapBits]
      omega

theorem overlapBits_lt_of_take (adv : List String) (ts : List String) :
    ∀ (i : Nat), i < ts.length → (∀ t ∈ ts.take (i + 1), t ∉ adv) →
      overlapBits ts adv < 2 ^ (ts.length - 1 - i) := by
  induction ts with
  | nil => intro i hi; simp at hi
  | cons t0 r ih =>
    intro i hi hno
    have h0 : t0 ∉ adv := hno t0 (by simp)
    simp only [overlapBits, h0, if_false, Nat.zero_add]
    cases i with
    | zero => simpa using overlapBits_lt r adv
    | succ i =>
      have hi2 : i < r.length := by simpa using hi
      have he : (t0 :: r).length - 1 - (i + 1) = r.length - 1 - i := by
        simp only [List.length_cons]; omega
      rw [he]
      apply ih i hi2
      intro t ht
      exact hno t (by simp [List.take_succ_cons, ht])

/-! ## Lemmas on the selection loop -/

theorem pickLoop_of_le (m : TagMap) (l : List subConnWithTags) :
    ∀ (maxPriority : Nat) (pickedConn : Option SubConn),
      (∀ sc ∈ l, currPriority m sc.tags ≤ maxPriority) →
      pickLoop m l maxPriority pickedConn = (maxPriority, pickedConn) := by
  induction l with
  | nil => intro _ _ _; rfl
  | cons a r ih =>
    intro maxPriority pickedConn h
    have ha : ¬ maxPriority < currPriority m a.tags :=
      Nat.not_lt.mpr (h a (List.mem_cons_self _ _))
    simp only [pickLoop, ha, if_false]
    exact ih _ _ fun sc hsc => h sc (List.mem_cons_of_mem _ hsc)

theorem pickLoop_of_lt (m : TagMap) (l : List subConnWithTags) :
    ∀ (maxPriority : Nat) (pickedConn : Option SubConn),
      (∃ sc ∈ l, maxPriority < currPriority m sc.tags) →
      ∃ (j : Nat) (best : subConnWithTags),
        l[j]? = some best ∧
        pickLoop m l maxPriority pickedConn = (currPriority m best.tags, some best.conn) ∧
        maxPriority < currPriority m best.tags ∧
        (∀ sc ∈ l, currPriority m sc.tags ≤ currPriority m best.tags) ∧
        (∀ (k : Nat) (sc : subConnWithTags), k < j → l[k]? = some sc →
          currPriority m sc.tags < currPriority m best.tags) := by
  induction l with
  | nil => intro _ _ h; obtain ⟨sc, hsc, _⟩ := h; simp at hsc
  | cons a r ih =>
    intro maxPriority pickedConn h
    by_cases ha : maxPriority < currPriority m a.tags
    · simp only [pickLoop, ha, if_true]
      by_cases hr : ∃ sc ∈ r, currPriority m a.tags < currPriority m sc.tags
      · obtain ⟨j, best, hj, hloop, hlt, hmax, hfirst⟩ := ih _ (some a.conn) hr
        refine ⟨j + 1, best, by simpa using hj, hloop, lt_trans ha hlt, ?_, ?_⟩
        · intro sc hsc
          rcases List.mem_cons.mp hsc with rfl | hsc
          · exact le_of_lt hlt
          · exact hmax sc hsc
        · intro k sc hk hksc
          cases k with
          | zero =>
            have : a = sc := by simpa using hksc
            exact this ▸ hlt
          | succ k => exact hfirst k sc (by omega) (by simpa using hksc)
      · have hle : ∀ sc ∈ r, currPriority m sc.tags ≤ currPriority m a.tags := by
          intro sc hsc
          by_contra hc
          exact hr ⟨sc, hsc, Nat.lt_of_not_le hc⟩
        refine ⟨0, a, by simp, pickLoop_of_le m r _ _ hle, ha, ?_, ?_⟩
        · intro sc hsc
          rcases List.mem_cons.mp hsc with rfl | hsc
          · exact le_refl _
          · exact hle sc hsc
        · intro k sc hk _
          omega
    · simp only [pickLoop, ha, if_false]
      have hr : ∃ sc ∈ r, maxPriority < currPriority m sc.tags := by
        obtain ⟨sc, hsc, hlt⟩ := h
        rcases List.mem_cons.mp hsc with rfl | hsc
        · exact absurd hlt ha
        · exact ⟨sc, hsc, hlt⟩
      obtain ⟨j, best, hj, hloop, hlt, hmax, hfirst⟩ := ih maxPriority pickedConn hr
      refine ⟨j + 1, best, by simpa using hj, hloop, hlt, ?_, ?_⟩
      · intro sc hsc
        rcases List.mem_cons.mp hsc with rfl | hsc
        · exact le_of_lt (lt_of_le_of_lt (Nat.le_of_not_lt ha) hlt)
        · exact hmax sc hsc
      · intro k sc hk hksc
        cases k with
        | zero =>
          have : a = sc := by simpa using hksc
          exact this ▸ lt_of_le_of_lt (Nat.le_of_not_lt ha) hlt
        | succ k => exact hfirst k sc (by omega) (by simpa using hksc)

theorem currPriority_eq_overlapBits (md : MD) (values ts : List String)
    (hmd : md.lookup "x-traffic-tag" = some values) (hts : collectTags values = ts)
    (hnd : ts.Nodup) (h16 : ts.length ≤ 16) (adv : List String) (hadv : adv.Nodup) :
    currPriority (trafficTagsFromContext ⟨some md⟩) adv = overlapBits ts adv := by
  rw [currPriority_eq_sum, ← sum_posWeight_eq_overlapBits ts hnd adv hadv]
  congr 1
  apply List.map_congr_left
  intro t _
  exact trafficTags_get_eq_posWeight md values ts hmd hts hnd h16 t

theorem trafficTagsFromContext_length_pos (md : MD) (values ts : List String)
    (hmd : md.lookup "x-traffic-tag" = some values) (hts : collectTags values = ts)
    (h16 : ts.length ≤ 16) (hne : ts ≠ []) :
    0 < (trafficTagsFromContext ⟨some md⟩).length := by
  rw [trafficTagsFromContext_of_lookup md values ts hmd hts h16]
  exact assignPriorities_length_pos ts.length 0 ts [] hne

/-! ## The selection by score -/

/-- The selection with exact addition: when the parsed tag set of the call is not empty
and some connection has a score above zero, `Pick` returns a nil error and the connection
at the smallest list index among those of maximal score. -/
theorem Pick_returns_first_of_max_score (p : trafficPicker) (ctx : Context)
    (htags : (trafficTagsFromContext ctx).length ≠ 0)
    (hpos : ∃ sc ∈ p.subConns, 0 < (sc.tags.map (trafficTagsFromContext ctx).get).sum) :
    ∃ (j : Nat) (best : subConnWithTags),
      p.subConns[j]? = some best ∧
      (Pick p ctx).1 = PickOutcome.ok ⟨some best.conn⟩ ∧
      (∀ sc ∈ p.subConns, (sc.tags.map (trafficTagsFromContext ctx).get).sum ≤
        (best.tags.map (trafficTagsFromContext ctx).get).sum) ∧
      (∀ (k : Nat) (sc : subConnWithTags), k < j → p.subConns[k]? = some sc →
        (sc.tags.map (trafficTagsFromContext ctx).get).sum <
          (best.tags.map (trafficTagsFromContext ctx).get).sum) := by
  simp only [← currPriority_eq_sum] at hpos ⊢
  obtain ⟨j, best, hj, hloop, _, hmax, hfirst⟩ :=
    pickLoop_of_lt (trafficTagsFromContext ctx) p.subConns 0 none hpos
  refine ⟨j, best, hj, ?_, hmax, hfirst⟩
  simp [Pick, htags, hloop]

/-- C6: when the parsed tag set of the call is not empty and every connection scores zero,
`Pick` returns a nil error with a nil connection and leaves the picker, its cursor
included, as it was. -/
theorem Pick_nil_of_all_scores_zero (p : trafficPicker) (ctx : Context)
    (htags : (trafficTagsFromContext ctx).length ≠ 0)
    (hzero : ∀ sc ∈ p.subConns, (sc.tags.map (trafficTagsFromContext ctx).get).sum = 0) :
    Pick p ctx = (PickOutcome.ok ⟨none⟩, p) := by
  simp only [← currPriority_eq_sum] at hzero
  have hloop := pickLoop_of_le (trafficTagsFromContext ctx) p.subConns 0 none
    (fun sc hsc => Nat.le_of_eq (hzero sc hsc))
  simp [Pick, htags, hloop]

/-- C6 at a picker whose only connection is tagged `[y]`, for the request `"x"`. -/
theorem Pick_nil_of_all_scores_zero_witness :
    ((trafficTagsFromContext (tagContext "x")).length ≠ 0 ∧
      ∀ sc ∈ [(⟨⟨"B"⟩, ["y"]⟩ : subConnWithTags)],
        (sc.tags.map (trafficTagsFromContext (tagContext "x")).get).sum = 0) ∧
    Pick ⟨[⟨⟨"B"⟩, ["y"]⟩], 7⟩ (tagContext "x") =
      (PickOutcome.ok ⟨none⟩, ⟨[⟨⟨"B"⟩, ["y"]⟩], 7⟩) :=
  ⟨⟨by decide, by decide⟩,
    Pick_nil_of_all_scores_zero ⟨[⟨⟨"B"⟩, ["y"]⟩], 7⟩ (tagContext "x") (by decide) (by decide)⟩

/-! ## The weights of a request -/

/-- C2: when the entries of one `x-traffic-tag` value, trimmed and without the blank ones,
are `N` pairwise distinct tags with `1 ≤ N ≤ 16`, the map of `trafficTagsFromContext` has
exactly these tags as keys, and the tag at position `i` weighs `2 ^ (N - 1 - i)`. -/
theorem trafficTagsFromContext_distinct_tags (md : MD) (value : String) (tags : List String)
    (hmd : md.lookup "x-traffic-tag" = some [value])
    (hparse : ((SplitSeq value ',').map TrimSpace).filter (fun trimmed => trimmed ≠ "") = tags)
    (hnd : tags.Nodup) (_h1 : 1 ≤ tags.length) (h16 : tags.length ≤ 16) :
    (∀ k : String, k ∈ (trafficTagsFromContext ⟨some md⟩).keys ↔ k ∈ tags) ∧
    (trafficTagsFromContext ⟨some md⟩).length = tags.length ∧
    ∀ (i : Nat) (hi : i < tags.length),
      (trafficTagsFromContext ⟨some md⟩).get tags[i] = 2 ^ (tags.length - 1 - i) := by
  have hts : collectTags [value] = tags := by
    simpa [collectTags] using hparse
  have hkeys : (trafficTagsFromContext ⟨some md⟩).keys = tags := by
    rw [trafficTagsFromContext_of_lookup md [value] tags hmd hts h16,
      keys_assignPriorities tags.length tags 0 [] hnd (by simp [TagMap.keys])]
    simp [TagMap.keys]
  refine ⟨fun k => by rw [hkeys], ?_, ?_⟩
  · have := congrArg List.length hkeys
    simpa [TagMap.keys] using this
  · intro i hi
    rw [trafficTags_get_eq_posWeight md [value] tags hmd hts hnd h16]
    exact posWeight_getElem tags hnd i hi

/-- C2 at the value of `TestTrafficTagsFromContext`: `"a,b,c"` gives `a = 4`, `b = 2`,
`c = 1`. -/
theorem trafficTagsFromContext_distinct_tags_witness :
    (((SplitSeq "a,b,c" ',').map TrimSpace).filter (fun trimmed => trimmed ≠ "") =
        ["a", "b", "c"] ∧ ["a", "b", "c"].Nodup) ∧
    (trafficTagsFromContext (tagContext "a,b,c")).length = 3 ∧
    (trafficTagsFromContext (tagContext "a,b,c")).get "a" = 4 ∧
    (trafficTagsFromContext (tagContext "a,b,c")).get "b" = 2 ∧
    (trafficTagsFromContext (tagContext "a,b,c")).get "c" = 1 :=
  have h := trafficTagsFromContext_distinct_tags [("x-traffic-tag", ["a,b,c"])] "a,b,c"
    ["a", "b", "c"] rfl (by decide) (by decide) (by decide) (by decide)
  ⟨⟨by decide, by decide⟩, h.2.1, h.2.2 0 (by decide), h.2.2 1 (by decide),
    h.2.2 2 (by decide)⟩

/-! ## Leading tags dominate, and ties come from equal overlap -/

/-- C9: for a request list `ts` of at most 16 pairwise distinct tags and two connections
`A` and `B` whose tag lists have no repeated tag, if `A` advertises the tag at position
`i` and `B` advertises none of the tags at positions `0..i`, then `A` scores strictly
higher than `B`; on a picker that holds `A`, `Pick` returns the connection of an entry
that scores strictly higher than `B`, so it does not return `B` (whose handle stands for
one tag list in the picker). -/
theorem score_lt_of_leading_tag (p : trafficPicker) (md : MD) (values ts : List String)
    (A B : subConnWithTags) (i : Nat)
    (hmd : md.lookup "x-traffic-tag" = some values) (hts : collectTags values = ts)
    (hnd : ts.Nodup) (h16 : ts.length ≤ 16)
    (hA : A.tags.Nodup) (hB : B.tags.Nodup)
    (hi : i < ts.length) (hAi : ts[i] ∈ A.tags) (hBi : ∀ t ∈ ts.take (i + 1), t ∉ B.tags) :
    currPriority (trafficTagsFromContext ⟨some md⟩) B.tags <
      currPriority (trafficTagsFromContext ⟨some md⟩) A.tags ∧
    (A ∈ p.subConns →
      ∃ best ∈ p.subConns,
        (Pick p ⟨some md⟩).1 = PickOutcome.ok ⟨some best.conn⟩ ∧
        currPriority (trafficTagsFromContext ⟨some md⟩) B.tags <
          currPriority (trafficTagsFromContext ⟨some md⟩) best.tags) ∧
    (A ∈ p.subConns →
      (∀ e ∈ p.subConns, e.conn = B.conn → e.tags = B.tags) →
      (Pick p ⟨some md⟩).1 ≠ PickOutcome.ok ⟨some B.conn⟩) := by
  have hlt : currPriority (trafficTagsFromContext ⟨some md⟩) B.tags <
      currPriority (trafficTagsFromContext ⟨some md⟩) A.tags := by
    rw [currPriority_eq_overlapBits md values ts hmd hts hnd h16 A.tags hA,
      currPriority_eq_overlapBits md values ts hmd hts hnd h16 B.tags hB]
    exact lt_of_lt_of_le (overlapBits_lt_of_take B.tags ts i hi hBi)
      (overlapBits_ge A.tags ts i hi hAi)
  have hne : ts ≠ [] := by
    intro h
    rw [h] at hi
    simp at hi
  have hlen := trafficTagsFromContext_length_pos md values ts hmd hts h16 hne
  have hbest : A ∈ p.subConns →
      ∃ best ∈ p.subConns,
        (Pick p ⟨some md⟩).1 = PickOutcome.ok ⟨some best.conn⟩ ∧
        currPriority (trafficTagsFromContext ⟨some md⟩) B.tags <
          currPriority (trafficTagsFromContext ⟨some md⟩) best.tags := by
    intro hAp
    obtain ⟨j, best, hj, hloop, _, hmax, _⟩ :=
      pickLoop_of_lt (trafficTagsFromContext ⟨some md⟩) p.subConns 0 none
        ⟨A, hAp, lt_of_le_of_lt (Nat.zero_le _) hlt⟩
    refine ⟨best, List.getElem?_mem hj, ?_, lt_of_lt_of_le hlt (hmax A hAp)⟩
    simp [Pick, Nat.pos_iff_ne_zero.mp hlen, hloop]
  refine ⟨hlt, hbest, ?_⟩
  intro hAp hBuniq hpick
  obtain ⟨best, hmem, hres, hgt⟩ := hbest hAp
  rw [hres] at hpick
  have hconn : best.conn = B.conn := by
    injection hpick with h1
    injection h1 with h2
    injection h2
  rw [hBuniq best hmem hconn] at hgt
  exact lt_irrefl _ hgt

/-- C9 at the fixture of `TestTrafficPicker_TagPriority`: for the request `"high,low"` the
connection tagged `[high]` scores above the one tagged `[low]`, which is not returned. -/
theorem score_lt_of_leading_tag_witness :
    (collectTags ["high,low"] = ["high", "low"] ∧ ["high", "low"].Nodup) ∧
    currPriority (trafficTagsFromContext (tagContext "high,low")) ["low"] <
      currPriority (trafficTagsFromContext (tagContext "high,low")) ["high"] ∧
    (Pick ⟨tagPrioritySubConns, 0⟩ (tagContext "high,low")).1 ≠
      PickOutcome.ok ⟨some ⟨"B"⟩⟩ :=
  have h := score_lt_of_leading_tag ⟨tagPrioritySubConns, 0⟩ [("x-traffic-tag", ["high,low"])]
    ["high,low"] ["high", "low"] ⟨⟨"A"⟩, ["high"]⟩ ⟨⟨"B"⟩, ["low"]⟩ 0
    rfl (by decide) (by decide) (by decide) (by decide) (by decide) (by decide)
    (by decide) (by decide)
  ⟨⟨by decide, by decide⟩, h.1, h.2.2 (by decide) (by decide)⟩

/-- C10: for a request list `ts` of at most 16 pairwise distinct tags and two connections
whose tag lists have no repeated tag, the scores are equal exactly when the two
connections advertise the same requested tags. -/
theorem score_eq_iff_same_requested_tags (md : MD) (values ts : List String)
    (A B : subConnWithTags)
    (hmd : md.lookup "x-traffic-tag" = some values) (hts : collectTags values = ts)
    (hnd : ts.Nodup) (h16 : ts.length ≤ 16)
    (hA : A.tags.Nodup) (hB : B.tags.Nodup) :
    currPriority (trafficTagsFromContext ⟨some md⟩) A.tags =
      currPriority (trafficTagsFromContext ⟨some md⟩) B.tags ↔
    ∀ t ∈ ts, (t ∈ A.tags ↔ t ∈ B.tags) := by
  rw [currPriority_eq_overlapBits md values ts hmd hts hnd h16 A.tags hA,
    currPriority_eq_overlapBits md values ts hmd hts hnd h16 B.tags hB]
  exact overlapBits_eq_iff ts hnd A.tags B.tags

/-- C10 for the request `"high,low"`: a connection tagged `[low, high]` and one tagged
`[high, other, low]` advertise the same requested tags and score the same. -/
theorem score_eq_iff_same_requested_tags_witness :
    (collectTags ["high,low"] = ["high", "low"] ∧ ["low", "high"].Nodup ∧
      ["high", "other", "low"].Nodup) ∧
    (currPriority (trafficTagsFromContext (tagContext "high,low")) ["low", "high"] =
      currPriority (trafficTagsFromContext (tagContext "high,low")) ["high", "other", "low"] ↔
    ∀ t ∈ ["high", "low"], (t ∈ ["low", "high"] ↔ t ∈ ["high", "other", "low"])) :=
  ⟨⟨by decide, by decide, by decide⟩,
    score_eq_iff_same_requested_tags [("x-traffic-tag", ["high,low"])] ["high,low"]
      ["high", "low"] ⟨⟨"C"⟩, ["low", "high"]⟩ ⟨⟨"D"⟩, ["high", "other", "low"]⟩
      rfl (by decide) (by decide) (by decide) (by decide) (by decide)⟩

/-! ## The round-robin path -/

theorem wrapInt32_of_inRange (x : Int) (hlo : -2 ^ 31 ≤ x) (hhi : x < 2 ^ 31) :
    wrapInt32 x = x := by
  unfold wrapInt32
  rw [Int.emod_eq_of_lt (by omega) (by omega)]
  omega

/-- The round-robin path on a cursor `c` with `-1 ≤ c` and `c + 1 ≤ 2 ^ 31 - 1`: the cursor
becomes `c + 1` and the connection at index `(c + 1) % L` is returned. -/
theorem pickRoundRobin_of_nonneg (p : trafficPicker) (hL : p.subConns.length ≠ 0)
    (hlo : -1 ≤ p.next) (hhi : p.next + 1 ≤ 2 ^ 31 - 1) :
    ∃ sc : subConnWithTags,
      p.subConns[((p.next + 1) % (p.subConns.length : Int)).toNat]? = some sc ∧
      pickRoundRobin p = (PickOutcome.ok ⟨some sc.conn⟩, { p with next := p.next + 1 }) := by
  have hw : AddInt32 p.next 1 = p.next + 1 :=
    wrapInt32_of_inRange (p.next + 1) (by omega) (by omega)
  have hLpos : (0 : Int) < (p.subConns.length : Int) := by omega
  have hmod : Int.tmod (p.next + 1) (p.subConns.length : Int) =
      (p.next + 1) % (p.subConns.length : Int) :=
    Int.tmod_eq_emod (by omega) (by omega)
  have hnn : 0 ≤ (p.next + 1) % (p.subConns.length : Int) :=
    Int.emod_nonneg _ (by omega)
  have hlt : (p.next + 1) % (p.subConns.length : Int) < (p.subConns.length : Int) :=
    Int.emod_lt_of_pos _ hLpos
  have hidx : ((p.next + 1) % (p.subConns.length : Int)).toNat < p.subConns.length := by
    omega
  refine ⟨p.subConns[((p.next + 1) % (p.subConns.length : Int)).toNat], ?_, ?_⟩
  · exact List.getElem?_eq_getElem hidx
  · simp only [pickRoundRobin, hL, if_false, hw, hmod, Int.not_lt.mpr hnn,
      List.getElem?_eq_getElem hidx]

theorem Pick_of_no_tags (p : trafficPicker) (ctx : Context)
    (hctx : (trafficTagsFromContext ctx).length = 0) : Pick p ctx = pickRoundRobin p := by
  simp [Pick, hctx]

/-- Sequential calls without tags from a cursor `c` with `-1 ≤ c` and `c + k ≤ 2 ^ 31 - 1`:
call number `j` returns the connection at index `(c + 1 + j) % L`. -/
theorem pickMany_outcome_of_nonneg (ctx : Context)
    (hctx : (trafficTagsFromContext ctx).length = 0) :
    ∀ (k : Nat) (p : trafficPicker), p.subConns.length ≠ 0 → -1 ≤ p.next →
      p.next + (k : Int) ≤ 2 ^ 31 - 1 → ∀ j : Nat, j < k →
      ∃ sc : subConnWithTags,
        p.subConns[((p.next + 1 + (j : Int)) % (p.subConns.length : Int)).toNat]? = some sc ∧
        (pickMany ctx k p).1[j]? = some (PickOutcome.ok ⟨some sc.conn⟩) := by
  intro k
  induction k with
  | zero => intro p _ _ _ j hj; omega
  | succ k ih =>
    intro p hL hlo hhi j hj
    obtain ⟨sc0, hsc0, hrr⟩ := pickRoundRobin_of_nonneg p hL hlo (by push_cast at hhi; omega)
    have hpick : Pick p ctx = (PickOutcome.ok ⟨some sc0.conn⟩, { p with next := p.next + 1 }) := by
      rw [Pick_of_no_tags p ctx hctx, hrr]
    have hmany : (pickMany ctx (k + 1) p).1 =
        PickOutcome.ok ⟨some sc0.conn⟩ :: (pickMany ctx k { p with next := p.next + 1 }).1 := by
      simp [pickMany, hpick]
    rw [hmany]
    cases j with
    | zero =>
      refine ⟨sc0, ?_, by simp⟩
      simpa using hsc0
    | succ j =>
      obtain ⟨sc, hsc, hout⟩ := ih { p with next := p.next + 1 } hL (by simp; omega)
        (by push_cast at hhi; simp; omega) j (by omega)
      refine ⟨sc, ?_, by simpa using hout⟩
      have he : p.next + 1 + ((j + 1 : Nat) : Int) = p.next + 1 + 1 + (j : Int) := by
        push_cast; ring
      rw [he]
      exact hsc

/-- Round-robin coverage from a cursor `c` with `-1 ≤ c`: `k ≥ L` sequential calls without
tags, with `c + k ≤ 2 ^ 31 - 1`, return every connection of the list. -/
theorem pickMany_covers_of_nonneg (ctx : Context)
    (hctx : (trafficTagsFromContext ctx).length = 0) (k : Nat) (p : trafficPicker)
    (hL : p.subConns.length ≠ 0) (hlo : -1 ≤ p.next) (hhi : p.next + (k : Int) ≤ 2 ^ 31 - 1)
    (hk : p.subConns.length ≤ k) :
    ∀ sc ∈ p.subConns, PickOutcome.ok ⟨some sc.conn⟩ ∈ (pickMany ctx k p).1 := by
  intro sc hsc
  obtain ⟨t, ht, hget⟩ := List.mem_iff_getElem.mp hsc
  have hLpos : (0 : Int) < (p.subConns.length : Int) := by omega
  have hnn : 0 ≤ ((t : Int) - (p.next + 1)) % (p.subConns.length : Int) :=
    Int.emod_nonneg _ (by omega)
  have hlt : ((t : Int) - (p.next + 1)) % (p.subConns.length : Int) <
      (p.subConns.length : Int) := Int.emod_lt_of_pos _ hLpos
  have hj : (((t : Int) - (p.next + 1)) % (p.subConns.length : Int)).toNat < k := by omega
  obtain ⟨sc1, hsc1, hout⟩ := pickMany_outcome_of_nonneg ctx hctx k p hL hlo hhi _ hj
  have hidx : (p.next + 1 +
      ((((t : Int) - (p.next + 1)) % (p.subConns.length : Int)).toNat : Int)) %
        (p.subConns.length : Int) = (t : Int) := by
    rw [Int.toNat_of_nonneg hnn, Int.add_emod_emod]
    have : p.next + 1 + ((t : Int) - (p.next + 1)) = (t : Int) := by ring
    rw [this]
    exact Int.emod_eq_of_lt (by omega) (by omega)
  rw [hidx] at hsc1
  have hsame : sc1 = sc := by
    have h1 : p.subConns[t]? = some sc := by
      rw [List.getElem?_eq_getElem ht, hget]
    simp only [Int.toNat_ofNat] at hsc1
    rw [h1] at hsc1
    exact (Option.some.inj hsc1).symm
  rw [hsame] at hout
  exact List.getElem?_mem hout

/-! ## Where the code departs from its description -/

/-- C3: on a picker without connections a call that carries the tag `x` gets a nil error
with a nil connection, whereas a call without metadata gets `ErrNoSubConnAvailable`. -/
theorem Pick_empty_picker_with_tags :
    Pick ⟨[], 0⟩ (tagContext "x") = (PickOutcome.ok ⟨none⟩, ⟨[], 0⟩) ∧
    Pick ⟨[], 0⟩ Background = (PickOutcome.ErrNoSubConnAvailable, ⟨[], 0⟩) := by
  decide

/-- C4: with two connections and the cursor at `-2`, a call without metadata advances the
cursor to `-1`, computes the index `-1 % 2 = -1` and stops with "index out of range";
the connection at index `(-1) mod 2 = 1` is not returned. -/
theorem Pick_negative_cursor_index_out_of_range :
    (-2 : Int) + 1 ≤ 2 ^ 31 - 1 ∧
    (trafficTagsFromContext Background).length = 0 ∧
    Pick ⟨roundRobinSubConns, -2⟩ Background =
      (PickOutcome.panicIndexOutOfRange, ⟨roundRobinSubConns, -1⟩) := by
  decide

/-- C5: with one connection tagged `[y]` and the request `x`, no connection scores above
zero; `Pick` returns a nil connection and keeps the cursor, whereas the call without tags
returns the connection `A` and advances the cursor. -/
theorem Pick_no_fallback_on_zero_score :
    Pick ⟨[⟨⟨"A"⟩, ["y"]⟩], 0⟩ (tagContext "x") =
      (PickOutcome.ok ⟨none⟩, ⟨[⟨⟨"A"⟩, ["y"]⟩], 0⟩) ∧
    Pick ⟨[⟨⟨"A"⟩, ["y"]⟩], 0⟩ Background =
      (PickOutcome.ok ⟨some ⟨"A"⟩⟩, ⟨[⟨⟨"A"⟩, ["y"]⟩], 1⟩) := by
  decide

/-- C7: with the two connections of the round-robin test and the cursor at `-2`, two
sequential calls without metadata end in "index out of range" at the first call; neither
connection is returned. -/
theorem pickMany_negative_cursor_covers_nothing :
    (-2 : Int) + 2 ≤ 2 ^ 31 - 1 ∧
    pickMany Background 2 ⟨roundRobinSubConns, -2⟩ =
      ([PickOutcome.panicIndexOutOfRange], ⟨roundRobinSubConns, -1⟩) := by
  decide

/-- C8: the value `"a,b,a"` survives as the list `[a, b, a]`; the tag `a` is listed first,
yet the second assignment to `a` leaves it the weight `1`, below the weight `2` of `b`. -/
theorem trafficTagsFromContext_repeated_tag :
    collectTags ["a,b,a"] = ["a", "b", "a"] ∧
    trafficTagsFromContext (tagContext "a,b,a") = [("a", 1), ("b", 2)] ∧
    (trafficTagsFromContext (tagContext "a,b,a")).get "a" <
      (trafficTagsFromContext (tagContext "a,b,a")).get "b" := by
  decide

/-! ## The cap at sixteen tags -/

theorem trafficTagsFromContext_eq_assignPriorities (md : MD) (values : List String)
    (hmd : md.lookup "x-traffic-tag" = some values) :
    trafficTagsFromContext ⟨some md⟩ =
      assignPriorities ((collectTags values).take 16).length 0
        ((collectTags values).take 16) [] := by
  simp only [trafficTagsFromContext, FromOutgoingContext, hmd]
  by_cases hv : values.length = 0
  · have : values = [] := List.length_eq_zero.mp hv
    subst this
    simp [collectTags, assignPriorities]
  · simp only [hv, if_false]
    rcases le_total 16 (collectTags values).length with h | h
    · rw [Nat.min_eq_left h]
    · rw [Nat.min_eq_right h, List.take_length, List.take_of_length_le h]

theorem get_assignPriorities_of_not_mem (n : Nat) (t : String) (l : List String) :
    ∀ (i : Nat) (m : TagMap), t ∉ l → (assignPriorities n i l m).get t = m.get t := by
  induction l with
  | nil => intro i m _; rfl
  | cons t0 rest ih =>
    intro i m h
    simp only [List.mem_cons, not_or] at h
    simp only [assignPriorities]
    rw [ih (i + 1) _ h.2]
    exact TagMap.get_set_of_ne m t0 t _ (fun e => h.1 e.symm)

theorem TagMap.mem_of_mem_set (m : TagMap) (k : String) (v : Nat) (e : String × Nat)
    (h : e ∈ m.set k v) : e ∈ m ∨ e = (k, v) := by
  induction m with
  | nil =>
    right
    simpa [TagMap.set] using h
  | cons e0 rest ih =>
    obtain ⟨k0, v0⟩ := e0
    by_cases h0 : k0 = k
    · simp only [TagMap.set, h0, if_true, List.mem_cons] at h
      rcases h with h | h
      · exact Or.inr h
      · exact Or.inl (List.mem_cons_of_mem _ h)
    · simp only [TagMap.set, h0, if_false, List.mem_cons] at h
      rcases h with h | h
      · exact Or.inl (h ▸ List.mem_cons_self _ _)
      · rcases ih h with h | h
        · exact Or.inl (List.mem_cons_of_mem _ h)
        · exact Or.inr h

theorem TagMap.length_set_le (m : TagMap) (k : String) (v : Nat) :
    (m.set k v).length ≤ m.length + 1 := by
  induction m with
  | nil => simp [TagMap.set]
  | cons e0 rest ih =>
    obtain ⟨k0, v0⟩ := e0
    by_cases h0 : k0 = k
    · simp [TagMap.set, h0]
    · simpa [TagMap.set, h0] using ih

theorem length_assignPriorities_le (n : Nat) (l : List String) :
    ∀ (i : Nat) (m : TagMap), (assignPriorities n i l m).length ≤ m.length + l.length := by
  induction l with
  | nil => intro i m; simp [assignPriorities]
  | cons t0 rest ih =>
    intro i m
    simp only [assignPriorities, List.length_cons]
    have h1 := ih (i + 1) (m.set t0 ((1 <<< (n - i - 1)) % 2 ^ 16))
    have h2 := TagMap.length_set_le m t0 ((1 <<< (n - i - 1)) % 2 ^ 16)
    omega

theorem mem_assignPriorities (n : Nat) (e : String × Nat) (l : List String) :
    ∀ (i : Nat) (m : TagMap), e ∈ assignPriorities n i l m →
      e ∈ m ∨ (e.1 ∈ l ∧ ∃ j : Nat, i ≤ j ∧ j < i + l.length ∧
        e.2 = (1 <<< (n - j - 1)) % 2 ^ 16) := by
  induction l with
  | nil => intro i m h; exact Or.inl h
  | cons t0 rest ih =>
    intro i m h
    simp only [assignPriorities] at h
    rcases ih (i + 1) _ h with h | ⟨hk, j, hj1, hj2, hv⟩
    · rcases TagMap.mem_of_mem_set m t0 _ e h with h | h
      · exact Or.inl h
      · right
        refine ⟨by simp [h], i, le_refl _, by simp, by simp [h]⟩
    · right
      refine ⟨List.mem_cons_of_mem _ hk, j, by omega, ?_, hv⟩
      simp only [List.length_cons]
      omega

/-- C11: when more than sixteen entries survive, `trafficTagsFromContext` returns the map
of the first sixteen alone; the map has at most sixteen entries, a tag that is not among
the first sixteen has no key and no weight, and when the sixteen are distinct the tag at
position `i` weighs `2 ^ (15 - i)`. -/
theorem trafficTagsFromContext_keeps_first_sixteen (md : MD) (values ts : List String)
    (hmd : md.lookup "x-traffic-tag" = some values) (hts : collectTags values = ts)
    (hlen : 16 < ts.length) :
    (∀ (md2 : MD) (values2 : List String), md2.lookup "x-traffic-tag" = some values2 →
      collectTags values2 = ts.take 16 →
      trafficTagsFromContext ⟨some md2⟩ = trafficTagsFromContext ⟨some md⟩) ∧
    (trafficTagsFromContext ⟨some md⟩).length ≤ 16 ∧
    (∀ t : String, t ∉ ts.take 16 →
      t ∉ (trafficTagsFromContext ⟨some md⟩).keys ∧
      (trafficTagsFromContext ⟨some md⟩).get t = 0) ∧
    ((ts.take 16).Nodup → ∀ (i : Nat) (t : String), i < 16 → ts[i]? = some t →
      (trafficTagsFromContext ⟨some md⟩).get t = 2 ^ (15 - i)) := by
  subst hts
  have hm := trafficTagsFromContext_eq_assignPriorities md values hmd
  have hl16 : ((collectTags values).take 16).length = 16 := by
    rw [List.length_take]
    omega
  refine ⟨?_, ?_, ?_, ?_⟩
  · intro md2 values2 hmd2 hts2
    rw [hm, trafficTagsFromContext_eq_assignPriorities md2 values2 hmd2, hts2,
      List.take_take, Nat.min_self]
  · rw [hm]
    have := length_assignPriorities_le ((collectTags values).take 16).length
      ((collectTags values).take 16) 0 []
    simp only [List.length_nil, Nat.zero_add] at this
    omega
  · intro t ht
    rw [hm]
    refine ⟨?_, ?_⟩
    · intro hk
      obtain ⟨e, he, hfst⟩ := List.mem_map.mp hk
      rcases mem_assignPriorities _ e _ 0 [] he with h | ⟨h, _⟩
      · simp at h
      · exact ht (hfst ▸ h)
    · rw [get_assignPriorities_of_not_mem _ t _ 0 [] ht]
      rfl
  · intro hnd i t hi hit
    rw [hm, get_assignPriorities _ (by omega) _ 0 [] (by simp) hnd t]
    have hi2 : i < ((collectTags values).take 16).length := by omega
    have hget : ((collectTags values).take 16)[i] = t := by
      have h1 : ((collectTags values).take 16)[i]? = some t := by
        rw [List.getElem?_take_of_lt hi]
        exact hit
      rw [List.getElem?_eq_getElem hi2] at h1
      exact Option.some.inj h1
    have hmem : t ∈ (collectTags values).take 16 := hget ▸ List.getElem_mem hi2
    simp only [hmem, if_true]
    rw [← hget, posWeight_getElem _ hnd i hi2, hl16]

/-- C11 at a request of seventeen distinct tags `a` to `q`: the map has sixteen entries,
`a` weighs `2 ^ 15`, `p` weighs `1`, and `q` has no weight. -/
theorem trafficTagsFromContext_keeps_first_sixteen_witness :
    (collectTags [seventeenTags] =
        ["a", "b", "c", "d", "e", "f", "g", "h", "i", "j", "k", "l", "m", "n", "o", "p", "q"]) ∧
    (trafficTagsFromContext (tagContext seventeenTags)).length ≤ 16 ∧
    (trafficTagsFromContext (tagContext seventeenTags)).get "q" = 0 ∧
    (trafficTagsFromContext (tagContext seventeenTags)).get "a" = 2 ^ 15 ∧
    (trafficTagsFromContext (tagContext seventeenTags)).get "p" = 2 ^ 0 :=
  have h := trafficTagsFromContext_keeps_first_sixteen [("x-traffic-tag", [seventeenTags])]
    [seventeenTags]
    ["a", "b", "c", "d", "e", "f", "g", "h", "i", "j", "k", "l", "m", "n", "o", "p", "q"]
    rfl (by decide) (by decide)
  ⟨by decide, h.2.1, (h.2.2.1 "q" (by decide)).2, h.2.2.2 (by decide) 0 "a" (by decide) rfl,
    h.2.2.2 (by decide) 15 "p" (by decide) rfl⟩

/-! ## What a selected connection advertises -/

theorem exists_pos_get_of_currPriority_pos (m : TagMap) (tags : List String)
    (h : 0 < currPriority m tags) : ∃ t ∈ tags, 0 < m.get t := by
  rw [currPriority_eq_sum] at h
  by_contra hc
  have hz : ∀ x ∈ tags.map m.get, x = 0 := by
    intro x hx
    obtain ⟨t, ht, rfl⟩ := List.mem_map.mp hx
    by_contra hne
    exact hc ⟨t, ht, Nat.pos_of_ne_zero hne⟩
  rw [List.sum_eq_zero hz] at h
  exact lt_irrefl _ h

/-- C12: for a call with a non-empty tag set, whenever `Pick` returns a connection, that
connection belongs to an entry of the list of the picker that advertises a requested tag,
a key of the tag set with a positive weight. -/
theorem Pick_selected_advertises_requested_tag (p : trafficPicker) (ctx : Context)
    (c : SubConn) (htags : (trafficTagsFromContext ctx).length ≠ 0)
    (hpick : (Pick p ctx).1 = PickOutcome.ok ⟨some c⟩) :
    ∃ sc ∈ p.subConns, sc.conn = c ∧
      ∃ t ∈ sc.tags, t ∈ (trafficTagsFromContext ctx).keys ∧
        0 < (trafficTagsFromContext ctx).get t := by
  by_cases hpos : ∃ sc ∈ p.subConns, 0 < currPriority (trafficTagsFromContext ctx) sc.tags
  · obtain ⟨j, best, hj, hloop, hlt, _, _⟩ :=
      pickLoop_of_lt (trafficTagsFromContext ctx) p.subConns 0 none hpos
    have hres : (Pick p ctx).1 = PickOutcome.ok ⟨some best.conn⟩ := by
      simp [Pick, htags, hloop]
    rw [hres] at hpick
    have hconn : best.conn = c := by
      injection hpick with h1
      injection h1 with h2
      injection h2
    obtain ⟨t, ht, hgt⟩ := exists_pos_get_of_currPriority_pos _ _ hlt
    refine ⟨best, List.getElem?_mem hj, hconn, t, ht, ?_, hgt⟩
    by_contra hk
    rw [TagMap.get_of_not_mem_keys _ t hk] at hgt
    exact lt_irrefl _ hgt
  · have hle : ∀ sc ∈ p.subConns, currPriority (trafficTagsFromContext ctx) sc.tags ≤ 0 := by
      intro sc hsc
      by_contra hc
      exact hpos ⟨sc, hsc, Nat.lt_of_not_le hc⟩
    have hloop := pickLoop_of_le (trafficTagsFromContext ctx) p.subConns 0 none hle
    have hres : (Pick p ctx).1 = PickOutcome.ok ⟨none⟩ := by
      simp [Pick, htags, hloop]
    rw [hres] at hpick
    injection hpick with h1
    injection h1 with h2
    exact absurd h2 (by simp)

/-- C12 at the fixture of `TestTrafficPicker_OnlyOneTagMatch`: for the request `x` the
connection `A`, tagged `[x]`, is returned whether it stands before or after `B`, tagged
`[y]`. -/
theorem Pick_selected_advertises_requested_tag_witness :
    ((trafficTagsFromContext (tagContext "x")).length ≠ 0 ∧
      (Pick ⟨oneTagMatchSubConns, 0⟩ (tagContext "x")).1 = PickOutcome.ok ⟨some ⟨"A"⟩⟩ ∧
      (Pick ⟨oneTagMatchSubConns.reverse, 0⟩ (tagContext "x")).1 =
        PickOutcome.ok ⟨some ⟨"A"⟩⟩) ∧
    ∃ sc ∈ oneTagMatchSubConns, sc.conn = ⟨"A"⟩ ∧
      ∃ t ∈ sc.tags, t ∈ (trafficTagsFromContext (tagContext "x")).keys ∧
        0 < (trafficTagsFromContext (tagContext "x")).get t :=
  ⟨⟨by decide, by decide, by decide⟩,
    Pick_selected_advertises_requested_tag ⟨oneTagMatchSubConns, 0⟩ (tagContext "x") ⟨"A"⟩
      (by decide) (by decide)⟩

/-! ## The range of the weights -/

/-- C13: every weight in the map of `trafficTagsFromContext` is a power of two between
`1` and `2 ^ 15`; the `uint16` shift does not wrap to zero. -/
theorem trafficTagsFromContext_weight_range (ctx : Context) (k : String) (v : Nat)
    (h : (k, v) ∈ trafficTagsFromContext ctx) :
    (∃ e : Nat, e ≤ 15 ∧ v = 2 ^ e) ∧ 1 ≤ v ∧ v ≤ 2 ^ 15 := by
  have hpow : ∃ e : Nat, e ≤ 15 ∧ v = 2 ^ e := by
    cases hctx : ctx.outgoing with
    | none => simp [trafficTagsFromContext, FromOutgoingContext, hctx] at h
    | some md =>
      have hc : ctx = ⟨some md⟩ := by
        cases ctx
        simpa using hctx
      subst hc
      cases hmd : md.lookup "x-traffic-tag" with
      | none => simp [trafficTagsFromContext, FromOutgoingContext, hmd] at h
      | some values =>
        rw [trafficTagsFromContext_eq_assignPriorities md values hmd] at h
        have hl : ((collectTags values).take 16).length ≤ 16 := by
          rw [List.length_take]
          omega
        rcases mem_assignPriorities _ (k, v) _ 0 [] h with h | ⟨_, j, _, hj, hv⟩
        · simp at h
        · refine ⟨((collectTags values).take 16).length - j - 1, by omega, ?_⟩
          simp only at hv
          rw [hv, Nat.one_shiftLeft]
          apply Nat.mod_eq_of_lt
          exact Nat.pow_lt_pow_right (by norm_num) (by omega)
  obtain ⟨e, he, hv⟩ := hpow
  refine ⟨⟨e, he, hv⟩, ?_, ?_⟩
  · rw [hv]
    exact Nat.one_le_two_pow
  · rw [hv]
    exact Nat.pow_le_pow_right (by norm_num) he

/-- C13 at the request `"a,b,c"`: the entry of `a` is `4 = 2 ^ 2`. -/
theorem trafficTagsFromContext_weight_range_witness :
    (("a", 4) ∈ trafficTagsFromContext (tagContext "a,b,c")) ∧
    ((∃ e : Nat, e ≤ 15 ∧ 4 = 2 ^ e) ∧ 1 ≤ 4 ∧ 4 ≤ 2 ^ 15) :=
  ⟨by decide, trafficTagsFromContext_weight_range (tagContext "a,b,c") "a" 4 (by decide)⟩

/-! ## The normalised address list -/

theorem populateEndpoints_perm_dedup (input : List String) :
    (populateEndpoints input).Perm input.dedup :=
  List.perm_insertionSort _ _

theorem populateEndpoints_sorted_data (input : List String) :
    List.Sorted (fun a b : String => a.data ≤ b.data) (populateEndpoints input) :=
  have : IsTotal String (fun a b : String => a.data ≤ b.data) :=
    ⟨fun a b => le_total a.data b.data⟩
  have : IsTrans String (fun a b : String => a.data ≤ b.data) :=
    ⟨fun _ _ _ h1 h2 => le_trans h1 h2⟩
  List.sorted_insertionSort _ _

/-- C14: the address list that `populateEndpoints` hands to `UpdateState` is sorted
lexicographically by address string, has no duplicates, holds exactly the addresses of the
input, and is the same list for any two inputs that list the same addresses, in whatever
order. -/
theorem populateEndpoints_sorted_nodup_order_independent (input : List String) :
    List.Sorted (fun a b : String => a ≤ b) (populateEndpoints input) ∧
    (populateEndpoints input).Nodup ∧
    (∀ a : String, a ∈ populateEndpoints input ↔ a ∈ input) ∧
    (∀ input2 : List String, input2.Perm input →
      populateEndpoints input2 = populateEndpoints input) ∧
    (∀ input2 : List String, (∀ a : String, a ∈ input2 ↔ a ∈ input) →
      populateEndpoints input2 = populateEndpoints input) := by
  have hsame : ∀ input2 : List String, (∀ a : String, a ∈ input2 ↔ a ∈ input) →
      populateEndpoints input2 = populateEndpoints input := by
    intro input2 hmem
    have hperm : input2.dedup.Perm input.dedup := by
      rw [List.perm_ext_iff_of_nodup (List.nodup_dedup _) (List.nodup_dedup _)]
      intro a
      simp [List.mem_dedup, hmem a]
    have hp : (populateEndpoints input2).Perm (populateEndpoints input) :=
      ((populateEndpoints_perm_dedup input2).trans hperm).trans
        (populateEndpoints_perm_dedup input).symm
    have : IsAntisymm String (fun a b : String => a.data ≤ b.data) :=
      ⟨fun a b h1 h2 => String.ext (le_antisymm h1 h2)⟩
    exact List.eq_of_perm_of_sorted hp (populateEndpoints_sorted_data input2)
      (populateEndpoints_sorted_data input)
  refine ⟨?_, ?_, ?_, ?_, hsame⟩
  · exact (populateEndpoints_sorted_data input).imp fun h => String.le_iff_toList_le.mpr h
  · exact (populateEndpoints_perm_dedup input).nodup_iff.mpr (List.nodup_dedup _)
  · intro a
    rw [(populateEndpoints_perm_dedup input).mem_iff, List.mem_dedup]
  · intro input2 hperm
    exact hsame input2 fun a => hperm.mem_iff

/-- C14 at the inputs of `TestPopulateEndpoints`: `227.0.0.1:50051` before
`127.0.0.1:50051` is handed over in the order of `127.0.0.1:50051` first, as is the input
that is already in this order. -/
theorem populateEndpoints_sorted_nodup_order_independent_witness :
    populateEndpoints ["227.0.0.1:50051", "127.0.0.1:50051"] =
      ["127.0.0.1:50051", "227.0.0.1:50051"] ∧
    populateEndpoints ["127.0.0.1:50051", "227.0.0.1:50051"] =
      populateEndpoints ["227.0.0.1:50051", "127.0.0.1:50051"] ∧
    (populateEndpoints ["227.0.0.1:50051", "127.0.0.1:50051"]).Nodup :=
  have h := populateEndpoints_sorted_nodup_order_independent
    ["227.0.0.1:50051", "127.0.0.1:50051"]
  ⟨by decide, h.2.2.2.1 ["127.0.0.1:50051", "227.0.0.1:50051"] (List.Perm.swap _ _ _),
    h.2.1⟩

/-! ## The builder -/

theorem Int31_range (int63 : Nat) : 0 ≤ Int31 int63 ∧ Int31 int63 < 2 ^ 31 := by
  unfold Int31
  refine ⟨Int.ofNat_nonneg _, ?_⟩
  have h : (int63 % 2 ^ 63) >>> 32 < 2 ^ 31 := by
    rw [Nat.shiftRight_eq_div_pow]
    omega
  exact_mod_cast h

/-- C16: `Build` returns a picker with one entry per ready connection and no other, in
the order in which the ready set is visited, so that two visiting orders give
permutations of one list; the tag list of an entry is the `tags` attribute of its
connection when that is a list of strings and is empty when the attribute is missing or of
another type; the cursor starts at a non-negative `int32`; without ready connections the
list is empty. -/
theorem Build_entries_and_cursor (ready : List (SubConn × SubConnInfo)) (int63 : Nat) :
    (Build ⟨ready⟩ int63).subConns.map (fun sc => sc.conn) = ready.map (fun e => e.1) ∧
    (∀ (i : Nat) (e : SubConn × SubConnInfo), ready[i]? = some e →
      ∃ sc : subConnWithTags, (Build ⟨ready⟩ int63).subConns[i]? = some sc ∧
        sc.conn = e.1 ∧
        (∀ v : List String,
          e.2.Address.BalancerAttributes.Value "tags" = some (AttrValue.strings v) →
          sc.tags = v) ∧
        (e.2.Address.BalancerAttributes.Value "tags" = none → sc.tags = []) ∧
        (e.2.Address.BalancerAttributes.Value "tags" = some AttrValue.other →
          sc.tags = [])) ∧
    (∀ ready2 : List (SubConn × SubConnInfo), ready2.Perm ready →
      (Build ⟨ready2⟩ int63).subConns.Perm (Build ⟨ready⟩ int63).subConns) ∧
    (0 ≤ (Build ⟨ready⟩ int63).next ∧ (Build ⟨ready⟩ int63).next < 2 ^ 31) ∧
    (Build ⟨[]⟩ int63).subConns = [] := by
  refine ⟨?_, ?_, ?_, Int31_range int63, rfl⟩
  · simp [Build, List.map_map, Function.comp_def]
  · intro i e hie
    refine ⟨⟨e.1, assertStrings (e.2.Address.BalancerAttributes.Value "tags")⟩, ?_, rfl,
      ?_, ?_, ?_⟩
    · simp [Build, List.getElem?_map, hie]
    · intro v hv
      simp [hv, assertStrings]
    · intro hv
      simp [hv, assertStrings]
    · intro hv
      simp [hv, assertStrings]
  · intro ready2 hperm
    exact hperm.map _

/-- C16 at two ready connections, `A` with `tags = [x, y]` and `B` without attributes: the
picker holds `A` with `[x, y]` and `B` with no tags, in either visiting order up to a
permutation. -/
theorem Build_entries_and_cursor_witness :
    (Build ⟨twoReadySCs⟩ 0).subConns = [⟨⟨"A"⟩, ["x", "y"]⟩, ⟨⟨"B"⟩, []⟩] ∧
    (Build ⟨twoReadySCs.reverse⟩ 0).subConns.Perm (Build ⟨twoReadySCs⟩ 0).subConns ∧
    (0 ≤ (Build ⟨twoReadySCs⟩ (2 ^ 63 - 1)).next ∧
      (Build ⟨twoReadySCs⟩ (2 ^ 63 - 1)).next < 2 ^ 31) :=
  have h := Build_entries_and_cursor twoReadySCs
  ⟨by decide, (h 0).2.2.1 twoReadySCs.reverse (List.reverse_perm _), (h (2 ^ 63 - 1)).2.2.2.1⟩

/-! ## The cursor at and beyond the end of its range -/

/-- C15: with three connections and the cursor at `2 ^ 31 - 1`, a call without metadata
wraps the cursor to `-2 ^ 31` and computes the index `-2 ^ 31 % 3 = -2`, which is not in
range; the call stops with "index out of range" and returns no connection. -/
theorem Pick_wrapped_cursor_index_out_of_range :
    tagPrioritySubConns.length = 3 ∧
    AddInt32 (2 ^ 31 - 1) 1 = -2 ^ 31 ∧
    Int.tmod (AddInt32 (2 ^ 31 - 1) 1) 3 = -2 ∧
    Pick ⟨tagPrioritySubConns, 2 ^ 31 - 1⟩ Background =
      (PickOutcome.panicIndexOutOfRange, ⟨tagPrioritySubConns, -2 ^ 31⟩) := by
  decide

/-! ## What a call changes -/

theorem pickRoundRobin_subConns (p : trafficPicker) :
    (pickRoundRobin p).2.subConns = p.subConns := by
  unfold pickRoundRobin
  by_cases hL : p.subConns.length = 0
  · simp [hL]
  · simp only [hL, if_false]
    split
    · rfl
    · split <;> rfl

/-- C17: `Pick` leaves the connection list of the picker as it was; a call with a
non-empty tag set leaves the whole picker, the cursor included, as it was, and its outcome
is the same for every value of the cursor; a call with an empty tag set is the round-robin
path, which changes the cursor at most. -/
theorem Pick_changes_cursor_only (p : trafficPicker) (ctx : Context) :
    (Pick p ctx).2.subConns = p.subConns ∧
    ((trafficTagsFromContext ctx).length ≠ 0 →
      (Pick p ctx).2 = p ∧
      ∀ c : Int, (Pick ⟨p.subConns, c⟩ ctx).1 = (Pick p ctx).1) ∧
    ((trafficTagsFromContext ctx).length = 0 →
      Pick p ctx = pickRoundRobin p ∧
      (Pick p ctx).2 = { p with next := (Pick p ctx).2.next }) := by
  refine ⟨?_, ?_, ?_⟩
  · by_cases h : (trafficTagsFromContext ctx).length = 0
    · rw [Pick_of_no_tags p ctx h]
      exact pickRoundRobin_subConns p
    · simp [Pick, h]
  · intro h
    refine ⟨by simp [Pick, h], ?_⟩
    intro c
    simp [Pick, h]
  · intro h
    rw [Pick_of_no_tags p ctx h]
    refine ⟨rfl, ?_⟩
    have hs := pickRoundRobin_subConns p
    cases hq : (pickRoundRobin p).2 with
    | mk subConns next =>
      rw [hq] at hs
      simp only at hs
      simp [hs]

/-- C17 at the fixture of `TestTrafficPicker_TagPriority`: the call with the request
`"high,low"` leaves the picker with the cursor `5` as it was, and the call without
metadata moves the cursor to `6` and keeps the list. -/
theorem Pick_changes_cursor_only_witness :
    ((trafficTagsFromContext (tagContext "high,low")).length ≠ 0 ∧
      (trafficTagsFromContext Background).length = 0) ∧
    (Pick ⟨tagPrioritySubConns, 5⟩ (tagContext "high,low")).2 = ⟨tagPrioritySubConns, 5⟩ ∧
    (Pick ⟨tagPrioritySubConns, 5⟩ Background).2.subConns = tagPrioritySubConns ∧
    (Pick ⟨tagPrioritySubConns, 5⟩ Background).2.next = 6 :=
  ⟨⟨by decide, by decide⟩,
    ((Pick_changes_cursor_only ⟨tagPrioritySubConns, 5⟩ (tagContext "high,low")).2.1
      (by decide)).1,
    (Pick_changes_cursor_only ⟨tagPrioritySubConns, 5⟩ Background).1, by decide⟩

/-! ## Several values under the key -/

theorem splitChars_ne_nil (sep : Char) (cs : List Char) : splitChars sep cs ≠ [] := by
  cases cs with
  | nil => simp [splitChars]
  | cons c cs =>
    simp only [splitChars]
    split
    · simp
    · split <;> simp

theorem splitChars_append_sep (sep : Char) (a b : List Char) :
    splitChars sep (a ++ sep :: b) = splitChars sep a ++ splitChars sep b := by
  induction a with
  | nil => simp [splitChars]
  | cons c a ih =>
    by_cases hc : c = sep
    · simp [splitChars, hc, ih]
    · cases hs : splitChars sep a with
      | nil => exact absurd hs (splitChars_ne_nil sep a)
      | cons piece pieces =>
        rw [hs] at ih
        simp [splitChars, hc, ih, hs]

theorem intercalate_go_append (s x : String) (l : List String) :
    ∀ y : String, String.intercalate.go (x ++ y) s l = x ++ String.intercalate.go y s l := by
  induction l with
  | nil => intro y; simp [String.intercalate.go]
  | cons a l ih =>
    intro y
    simp only [String.intercalate.go]
    rw [← ih]
    simp [String.append_assoc]

theorem intercalate_cons_cons (s a b : String) (l : List String) :
    String.intercalate s (a :: b :: l) = a ++ s ++ String.intercalate s (b :: l) := by
  simp only [String.intercalate, String.intercalate.go]
  rw [String.append_assoc, intercalate_go_append, intercalate_go_append]
  simp [String.append_assoc]

theorem SplitSeq_append_comma (a b : String) :
    SplitSeq (a ++ "," ++ b) ',' = SplitSeq a ',' ++ SplitSeq b ',' := by
  have h : (a ++ "," ++ b).data = a.data ++ ',' :: b.data := by
    simp [String.data_append]
  simp only [SplitSeq, h, splitChars_append_sep, List.map_append]

theorem collectTags_append (vs1 vs2 : List String) :
    collectTags (vs1 ++ vs2) = collectTags vs1 ++ collectTags vs2 := by
  simp [collectTags, List.flatMap_append]

theorem collectTags_cons (v : String) (vs : List String) :
    collectTags (v :: vs) = collectTags [v] ++ collectTags vs :=
  collectTags_append [v] vs

theorem collectTags_intercalate (values : List String) :
    collectTags [String.intercalate "," values] = collectTags values := by
  induction values with
  | nil => decide
  | cons a l ih =>
    cases l with
    | nil => simp [String.intercalate, String.intercalate.go]
    | cons b l =>
      rw [intercalate_cons_cons, collectTags_cons a (b :: l), ← ih]
      simp [collectTags, SplitSeq_append_comma]

theorem dropWhile_isSpace_append_left (ws x : List Char) (hws : ∀ c ∈ ws, isSpace c = true) :
    (ws ++ x).dropWhile isSpace = x.dropWhile isSpace := by
  induction ws with
  | nil => rfl
  | cons c ws ih =>
    have hc : isSpace c = true := hws c (List.mem_cons_self _ _)
    simp only [List.cons_append, List.dropWhile_cons, hc, if_true]
    exact ih fun d hd => hws d (List.mem_cons_of_mem _ hd)

theorem trimSpaceChars_append_left (ws x : List Char) (hws : ∀ c ∈ ws, isSpace c = true) :
    trimSpaceChars (ws ++ x) = trimSpaceChars x := by
  simp only [trimSpaceChars, dropWhile_isSpace_append_left ws x hws]

theorem trimSpaceChars_append_right (ws x : List Char) (hws : ∀ c ∈ ws, isSpace c = true) :
    trimSpaceChars (x ++ ws) = trimSpaceChars x := by
  have hrev : ∀ c ∈ ws.reverse, isSpace c = true := fun c hc => hws c (List.mem_reverse.mp hc)
  simp only [trimSpaceChars]
  congr 1
  by_cases hx : (x.dropWhile isSpace).isEmpty = true
  · have hx2 : x.dropWhile isSpace = [] := List.isEmpty_iff.mp hx
    rw [List.dropWhile_append, if_pos hx, hx2]
    have hws2 : ws.dropWhile isSpace = [] := List.dropWhile_eq_nil_iff.mpr hws
    rw [hws2]
  · rw [List.dropWhile_append, if_neg hx, List.reverse_append,
      dropWhile_isSpace_append_left _ _ hrev]

theorem splitChars_append_left (sep : Char) (ws cs : List Char) (hws : sep ∉ ws) :
    ∃ (piece : List Char) (pieces : List (List Char)),
      splitChars sep cs = piece :: pieces ∧
      splitChars sep (ws ++ cs) = (ws ++ piece) :: pieces := by
  induction ws with
  | nil =>
    cases hs : splitChars sep cs with
    | nil => exact absurd hs (splitChars_ne_nil sep cs)
    | cons piece pieces => exact ⟨piece, pieces, rfl, by simpa using hs⟩
  | cons c ws ih =>
    simp only [List.mem_cons, not_or] at hws
    obtain ⟨piece, pieces, h1, h2⟩ := ih hws.2
    have hc : ¬ c = sep := fun e => hws.1 e.symm
    exact ⟨piece, pieces, h1, by simp [splitChars, hc, h2]⟩

theorem splitChars_append_right (sep : Char) (ws : List Char) (hws : sep ∉ ws)
    (cs : List Char) :
    ∃ (front : List (List Char)) (piece : List Char),
      splitChars sep cs = front ++ [piece] ∧
      splitChars sep (cs ++ ws) = front ++ [piece ++ ws] := by
  induction cs with
  | nil =>
    obtain ⟨piece, pieces, h1, h2⟩ := splitChars_append_left sep ws [] hws
    simp only [splitChars, List.cons.injEq] at h1
    refine ⟨[], [], by simp [splitChars], ?_⟩
    rw [List.append_nil] at h2
    simp [h2, ← h1.1, ← h1.2]
  | cons c cs ih =>
    obtain ⟨front, piece, h1, h2⟩ := ih
    by_cases hc : c = sep
    · exact ⟨[] :: front, piece, by simp [splitChars, hc, h1], by simp [splitChars, hc, h2]⟩
    · cases front with
      | nil =>
        exact ⟨[], c :: piece, by simp [splitChars, hc, h1], by simp [splitChars, hc, h2]⟩
      | cons f front =>
        exact ⟨(c :: f) :: front, piece, by simp [splitChars, hc, h1],
          by simp [splitChars, hc, h2]⟩

theorem not_mem_of_all_isSpace (ws : List Char) (hws : ∀ c ∈ ws, isSpace c = true) :
    ',' ∉ ws := by
  intro h
  have := hws ',' h
  exact absurd this (by decide)

theorem map_trimSpaceChars_splitChars_pad (ws1 ws2 cs : List Char)
    (h1 : ∀ c ∈ ws1, isSpace c = true) (h2 : ∀ c ∈ ws2, isSpace c = true) :
    (splitChars ',' (ws1 ++ cs ++ ws2)).map trimSpaceChars =
      (splitChars ',' cs).map trimSpaceChars := by
  obtain ⟨front, piece, hr1, hr2⟩ :=
    splitChars_append_right ',' ws2 (not_mem_of_all_isSpace ws2 h2) (ws1 ++ cs)
  obtain ⟨p0, ps, hl1, hl2⟩ :=
    splitChars_append_left ',' ws1 cs (not_mem_of_all_isSpace ws1 h1)
  rw [hr2, List.map_append, List.map_singleton, trimSpaceChars_append_right ws2 piece h2,
    ← List.map_singleton, ← List.map_append, ← hr1, hl2, hl1, List.map_cons, List.map_cons,
    trimSpaceChars_append_left ws1 p0 h1]

theorem collectTags_singleton (v : String) :
    collectTags [v] =
      (((splitChars ',' v.data).map trimSpaceChars).map String.mk).filter
        fun trimmed => trimmed ≠ "" := by
  simp [collectTags, SplitSeq, TrimSpace, List.map_map, Function.comp_def]

theorem collectTags_pad (v : String) (ws1 ws2 : List Char)
    (h1 : ∀ c ∈ ws1, isSpace c = true) (h2 : ∀ c ∈ ws2, isSpace c = true) :
    collectTags [⟨ws1 ++ v.data ++ ws2⟩] = collectTags [v] := by
  rw [collectTags_singleton, collectTags_singleton,
    map_trimSpaceChars_splitChars_pad ws1 ws2 v.data h1 h2]


theorem trafficTagsFromContext_congr (md md2 : MD) (values values2 : List String)
    (hmd : md.lookup "x-traffic-tag" = some values)
    (hmd2 : md2.lookup "x-traffic-tag" = some values2)
    (h : collectTags values2 = collectTags values) :
    trafficTagsFromContext ⟨some md2⟩ = trafficTagsFromContext ⟨some md⟩ := by
  rw [trafficTagsFromContext_eq_assignPriorities md values hmd,
    trafficTagsFromContext_eq_assignPriorities md2 values2 hmd2, h]

/-- C18: when the key `x-traffic-tag` holds the values `v_1, ..., v_k`, the map of
`trafficTagsFromContext` is the map of the single value that joins them with commas; the
tags of later values follow the tags of earlier values in the tag list, white space around
a value does not change the map, and neither does a value whose entries are all blank. -/
theorem trafficTagsFromContext_several_values (md md1 : MD) (values : List String)
    (hmd : md.lookup "x-traffic-tag" = some values)
    (hmd1 : md1.lookup "x-traffic-tag" = some [String.intercalate "," values]) :
    trafficTagsFromContext ⟨some md⟩ = trafficTagsFromContext ⟨some md1⟩ ∧
    (∀ vs1 vs2 : List String, values = vs1 ++ vs2 →
      collectTags values = collectTags vs1 ++ collectTags vs2) ∧
    (∀ (md2 : MD) (vs1 : List String) (v : String) (vs2 : List String) (ws1 ws2 : List Char),
      values = vs1 ++ v :: vs2 →
      (∀ c ∈ ws1, isSpace c = true) → (∀ c ∈ ws2, isSpace c = true) →
      md2.lookup "x-traffic-tag" = some (vs1 ++ ⟨ws1 ++ v.data ++ ws2⟩ :: vs2) →
      trafficTagsFromContext ⟨some md2⟩ = trafficTagsFromContext ⟨some md⟩) ∧
    (∀ (md2 : MD) (vs1 : List String) (b : String) (vs2 : List String),
      values = vs1 ++ vs2 → collectTags [b] = [] →
      md2.lookup "x-traffic-tag" = some (vs1 ++ b :: vs2) →
      trafficTagsFromContext ⟨some md2⟩ = trafficTagsFromContext ⟨some md⟩) := by
  refine ⟨?_, ?_, ?_, ?_⟩
  · exact (trafficTagsFromContext_congr md md1 values _ hmd hmd1
      (collectTags_intercalate values)).symm
  · intro vs1 vs2 h
    rw [h, collectTags_append]
  · intro md2 vs1 v vs2 ws1 ws2 h h1 h2 hmd2
    apply trafficTagsFromContext_congr md md2 values _ hmd hmd2
    rw [h, collectTags_append, collectTags_append, collectTags_cons _ vs2,
      collectTags_cons v vs2, collectTags_pad v ws1 ws2 h1 h2]
  · intro md2 vs1 b vs2 h hb hmd2
    apply trafficTagsFromContext_congr md md2 values _ hmd hmd2
    rw [h, collectTags_append, collectTags_append, collectTags_cons b vs2, hb,
      List.nil_append]

/-- C18 at the values `"a, b"`, `" "` and `"c,,d "`: the map is that of the single value
`"a, b, ,c,,d "`, with the weights `a = 8`, `b = 4`, `c = 2`, `d = 1`. -/
theorem trafficTagsFromContext_several_values_witness :
    String.intercalate "," ["a, b", " ", "c,,d "] = "a, b, ,c,,d " ∧
    trafficTagsFromContext ⟨some [("x-traffic-tag", ["a, b", " ", "c,,d "])]⟩ =
      trafficTagsFromContext (tagContext "a, b, ,c,,d ") ∧
    trafficTagsFromContext ⟨some [("x-traffic-tag", ["a, b", " ", "c,,d "])]⟩ =
      [("a", 8), ("b", 4), ("c", 2), ("d", 1)] :=
  ⟨by decide,
    (trafficTagsFromContext_several_values [("x-traffic-tag", ["a, b", " ", "c,,d "])]
      [("x-traffic-tag", ["a, b, ,c,,d "])] ["a, b", " ", "c,,d "] rfl (by decide)).1,
    by decide⟩

/-! ## The score in a machine integer agrees with the exact score -/

theorem wrapInt_add_wrapInt (bits : Nat) (x y : Int) :
    wrapInt bits (wrapInt bits x + y) = wrapInt bits (x + y) := by
  unfold wrapInt
  congr 1
  have h : (x + 2 ^ (bits - 1)) % 2 ^ bits - 2 ^ (bits - 1) + y + 2 ^ (bits - 1) =
      (x + 2 ^ (bits - 1)) % 2 ^ bits + y := by ring
  rw [h, Int.emod_add_emod]
  congr 1
  ring

theorem wrapInt_of_inRange (bits : Nat) (hbits : 1 ≤ bits) (x : Int) (hlo : 0 ≤ x)
    (hhi : x < 2 ^ (bits - 1)) : wrapInt bits x = x := by
  unfold wrapInt
  have hpow : (2 : Int) ^ bits = 2 * 2 ^ (bits - 1) := by
    have : bits = (bits - 1) + 1 := by omega
    conv_lhs => rw [this, pow_succ]
    ring
  rw [Int.emod_eq_of_lt (by omega) (by rw [hpow]; omega)]
  ring

theorem foldl_wrapInt_eq (bits : Nat) (m : TagMap) (tags : List String) :
    ∀ acc : Int,
      tags.foldl (fun acc tag => wrapInt bits (acc + (m.get tag : Int))) (wrapInt bits acc) =
        wrapInt bits (acc + ((tags.map m.get).sum : Nat)) := by
  induction tags with
  | nil => intro acc; simp
  | cons t rest ih =>
    intro acc
    simp only [List.foldl_cons, List.map_cons, List.sum_cons]
    rw [wrapInt_add_wrapInt, ih]
    congr 1
    push_cast
    ring

theorem currPriorityInt_eq_wrapInt (bits : Nat) (hbits : 1 ≤ bits) (m : TagMap)
    (tags : List String) :
    currPriorityInt bits m tags = wrapInt bits (currPriority m tags : Nat) := by
  have h0 : wrapInt bits 0 = 0 :=
    wrapInt_of_inRange bits hbits 0 (le_refl _) (by positivity)
  have := foldl_wrapInt_eq bits m tags 0
  rw [h0] at this
  rw [currPriorityInt, this, currPriority_eq_sum]
  simp


theorem TagMap.get_eq_zero_or_mem (m : TagMap) (t : String) :
    m.get t = 0 ∨ (t, m.get t) ∈ m := by
  induction m with
  | nil => exact Or.inl rfl
  | cons e rest ih =>
    obtain ⟨k0, v0⟩ := e
    by_cases h : k0 = t
    · right
      simp [TagMap.get, h]
    · rcases ih with h0 | h0
      · left
        simp [TagMap.get, h, h0]
      · right
        simp only [TagMap.get, h, if_false]
        exact List.mem_cons_of_mem _ h0

theorem trafficTagsFromContext_get_le (ctx : Context) (t : String) :
    (trafficTagsFromContext ctx).get t ≤ 2 ^ 15 := by
  rcases TagMap.get_eq_zero_or_mem (trafficTagsFromContext ctx) t with h | h
  · rw [h]
    exact Nat.zero_le _
  · generalize (trafficTagsFromContext ctx).get t = v at h
    cases hctx : ctx.outgoing with
    | none => simp [trafficTagsFromContext, FromOutgoingContext, hctx] at h
    | some md =>
      have hc : ctx = ⟨some md⟩ := by
        cases ctx
        simpa using hctx
      subst hc
      cases hmd : md.lookup "x-traffic-tag" with
      | none => simp [trafficTagsFromContext, FromOutgoingContext, hmd] at h
      | some values =>
        rw [trafficTagsFromContext_eq_assignPriorities md values hmd] at h
        have hl : ((collectTags values).take 16).length ≤ 16 := by
          rw [List.length_take]
          omega
        rcases mem_assignPriorities _ (t, v) _ 0 [] h with h | ⟨_, j, _, hj, hv⟩
        · simp at h
        · simp only at hv
          rw [hv, Nat.one_shiftLeft]
          refine le_trans (Nat.mod_le _ _) ?_
          exact Nat.pow_le_pow_right (by norm_num) (by omega)

theorem currPriority_le (ctx : Context) (tags : List String) :
    currPriority (trafficTagsFromContext ctx) tags ≤ tags.length * 2 ^ 15 := by
  rw [currPriority_eq_sum]
  induction tags with
  | nil => simp
  | cons t rest ih =>
    simp only [List.map_cons, List.sum_cons, List.length_cons]
    have := trafficTagsFromContext_get_le ctx t
    omega

theorem currPriorityInt_eq_currPriority (bits : Nat) (hbits : 32 ≤ bits) (ctx : Context)
    (tags : List String) (hlen : tags.length < 2 ^ 16) :
    currPriorityInt bits (trafficTagsFromContext ctx) tags =
      (currPriority (trafficTagsFromContext ctx) tags : Nat) := by
  rw [currPriorityInt_eq_wrapInt bits (by omega)]
  apply wrapInt_of_inRange bits (by omega) _ (Int.ofNat_nonneg _)
  have h1 := currPriority_le ctx tags
  have h2 : currPriority (trafficTagsFromContext ctx) tags < 2 ^ 31 := by omega
  have h3 : (2 : Int) ^ 31 ≤ 2 ^ (bits - 1) :=
    pow_le_pow_right₀ (by norm_num) (by omega)
  have h4 : ((currPriority (trafficTagsFromContext ctx) tags : Nat) : Int) < 2 ^ 31 := by
    exact_mod_cast h2
  omega

theorem pickLoopInt_eq_pickLoop (bits : Nat) (hbits : 32 ≤ bits) (ctx : Context)
    (l : List subConnWithTags) (hlen : ∀ sc ∈ l, sc.tags.length < 2 ^ 16) :
    ∀ (maxPriority : Nat) (pickedConn : Option SubConn),
      pickLoopInt bits (trafficTagsFromContext ctx) l (maxPriority : Int) pickedConn =
        (((pickLoop (trafficTagsFromContext ctx) l maxPriority pickedConn).1 : Int),
          (pickLoop (trafficTagsFromContext ctx) l maxPriority pickedConn).2) := by
  induction l with
  | nil => intro _ _; rfl
  | cons a r ih =>
    intro maxPriority pickedConn
    have ha := currPriorityInt_eq_currPriority bits hbits ctx a.tags
      (hlen a (List.mem_cons_self _ _))
    have ihr := ih fun sc hsc => hlen sc (List.mem_cons_of_mem _ hsc)
    simp only [pickLoopInt, pickLoop, ha, Nat.cast_lt]
    by_cases h : maxPriority < currPriority (trafficTagsFromContext ctx) a.tags
    · simp only [h, if_true]
      exact ihr _ _
    · simp only [h, if_false]
      exact ihr _ _

/-- On a platform whose `int` has at least 32 bits, and for a picker whose connections
advertise fewer than `2 ^ 16` tags each, no score wraps: the call is the one with exact
addition. -/
theorem PickInt_eq_Pick (bits : Nat) (hbits : 32 ≤ bits) (p : trafficPicker) (ctx : Context)
    (hlen : ∀ sc ∈ p.subConns, sc.tags.length < 2 ^ 16) :
    PickInt bits p ctx = Pick p ctx := by
  have h := pickLoopInt_eq_pickLoop bits hbits ctx p.subConns hlen 0 none
  simp only [Nat.cast_zero] at h
  simp only [PickInt, Pick, h]


/-- C1: on a platform whose `int` has at least 32 bits, for a picker whose connections
advertise fewer than `2 ^ 16` tags each and a call whose parsed tag set is not empty, if
some connection has a score above zero (the score of a connection is the sum, over its
advertised tags, of the requested weight, zero for an unrequested tag), `Pick` returns a
nil error and the connection at the smallest list index among those of maximal score. -/
theorem PickInt_returns_first_of_max_score (bits : Nat) (p : trafficPicker) (ctx : Context)
    (hbits : 32 ≤ bits) (hlen : ∀ sc ∈ p.subConns, sc.tags.length < 2 ^ 16)
    (htags : (trafficTagsFromContext ctx).length ≠ 0)
    (hpos : ∃ sc ∈ p.subConns, 0 < (sc.tags.map (trafficTagsFromContext ctx).get).sum) :
    ∃ (j : Nat) (best : subConnWithTags),
      p.subConns[j]? = some best ∧
      (PickInt bits p ctx).1 = PickOutcome.ok ⟨some best.conn⟩ ∧
      (∀ sc ∈ p.subConns, (sc.tags.map (trafficTagsFromContext ctx).get).sum ≤
        (best.tags.map (trafficTagsFromContext ctx).get).sum) ∧
      (∀ (k : Nat) (sc : subConnWithTags), k < j → p.subConns[k]? = some sc →
        (sc.tags.map (trafficTagsFromContext ctx).get).sum <
          (best.tags.map (trafficTagsFromContext ctx).get).sum) := by
  rw [PickInt_eq_Pick bits hbits p ctx hlen]
  exact Pick_returns_first_of_max_score p ctx htags hpos

/-- C1 at the fixture of `TestTrafficPicker_TagPriority` with a 32-bit `int`: with the
request `"high,low"` the connection `C`, tagged `[low, high]`, is returned. -/
theorem PickInt_returns_first_of_max_score_witness :
    ((∀ sc ∈ tagPrioritySubConns, sc.tags.length < 2 ^ 16) ∧
      (trafficTagsFromContext (tagContext "high,low")).length ≠ 0 ∧
      (PickInt 32 ⟨tagPrioritySubConns, 0⟩ (tagContext "high,low")).1 =
        PickOutcome.ok ⟨some ⟨"C"⟩⟩) ∧
    ∃ (j : Nat) (best : subConnWithTags),
      tagPrioritySubConns[j]? = some best ∧
      (PickInt 32 ⟨tagPrioritySubConns, 0⟩ (tagContext "high,low")).1 =
        PickOutcome.ok ⟨some best.conn⟩ ∧
      (∀ sc ∈ tagPrioritySubConns,
        (sc.tags.map (trafficTagsFromContext (tagContext "high,low")).get).sum ≤
          (best.tags.map (trafficTagsFromContext (tagContext "high,low")).get).sum) ∧
      (∀ (k : Nat) (sc : subConnWithTags), k < j → tagPrioritySubConns[k]? = some sc →
        (sc.tags.map (trafficTagsFromContext (tagContext "high,low")).get).sum <
          (best.tags.map (trafficTagsFromContext (tagContext "high,low")).get).sum) :=
  ⟨⟨by decide, by decide, by decide⟩,
    PickInt_returns_first_of_max_score 32 ⟨tagPrioritySubConns, 0⟩ (tagContext "high,low")
      (by decide) (by decide) (by decide) ⟨⟨⟨"A"⟩, ["high"]⟩, by decide, by decide⟩⟩

theorem currPriority_longTagList :
    currPriority (trafficTagsFromContext (tagContext sixteenTags)) longTagList = 2 ^ 31 := by
  have hget : (trafficTagsFromContext (tagContext sixteenTags)).get "a" = 32768 := by decide
  rw [currPriority_eq_sum, longTagList, List.map_replicate, List.sum_replicate, hget]
  rfl

theorem currPriorityInt_longTagList :
    currPriorityInt 32 (trafficTagsFromContext (tagContext sixteenTags)) longTagList =
      -2 ^ 31 := by
  rw [currPriorityInt_eq_wrapInt 32 (by decide), currPriority_longTagList]
  decide

/-- C1 as stated, refuted with a 32-bit `int`: for the request of sixteen tags that `a`
leads, the connection `A` advertises `a` 65536 times and has the maximal score `2 ^ 31`,
above the score `2 ^ 15` of `B`; its sum wraps to `-2 ^ 31`, and `Pick` returns `B`, which
is not a connection of maximal score. -/
theorem PickInt_wrapped_score_returns_lower_score :
    ((trafficTagsFromContext (tagContext sixteenTags)).length ≠ 0 ∧
      ∃ sc ∈ longTagSubConns,
        0 < (sc.tags.map (trafficTagsFromContext (tagContext sixteenTags)).get).sum) ∧
    (PickInt 32 ⟨longTagSubConns, 0⟩ (tagContext sixteenTags)).1 =
      PickOutcome.ok ⟨some ⟨"B"⟩⟩ ∧
    ¬ ∃ (j : Nat) (best : subConnWithTags),
      longTagSubConns[j]? = some best ∧
      (PickInt 32 ⟨longTagSubConns, 0⟩ (tagContext sixteenTags)).1 =
        PickOutcome.ok ⟨some best.conn⟩ ∧
      (∀ sc ∈ longTagSubConns,
        (sc.tags.map (trafficTagsFromContext (tagContext sixteenTags)).get).sum ≤
          (best.tags.map (trafficTagsFromContext (tagContext sixteenTags)).get).sum) ∧
      (∀ (k : Nat) (sc : subConnWithTags), k < j → longTagSubConns[k]? = some sc →
        (sc.tags.map (trafficTagsFromContext (tagContext sixteenTags)).get).sum <
          (best.tags.map (trafficTagsFromContext (tagContext sixteenTags)).get).sum) := by
  have hlen : (trafficTagsFromContext (tagContext sixteenTags)).length ≠ 0 := by decide
  have hB : currPriority (trafficTagsFromContext (tagContext sixteenTags)) ["a"] = 32768 := by
    decide
  have hBI : currPriorityInt 32 (trafficTagsFromContext (tagContext sixteenTags)) ["a"] =
      32768 := by
    decide
  have hres : (PickInt 32 ⟨longTagSubConns, 0⟩ (tagContext sixteenTags)).1 =
      PickOutcome.ok ⟨some ⟨"B"⟩⟩ := by
    simp only [PickInt, hlen, if_false, longTagSubConns, pickLoopInt, hBI,
      currPriorityInt_longTagList]
    decide
  refine ⟨⟨hlen, ⟨⟨"B"⟩, ["a"]⟩, by simp [longTagSubConns], ?_⟩, hres, ?_⟩
  · rw [← currPriority_eq_sum, hB]
    decide
  · rintro ⟨j, best, hj, hpick, hmax, _⟩
    rw [hres] at hpick
    have hconn : best.conn = ⟨"B"⟩ := by
      injection hpick with h1
      injection h1 with h2
      injection h2 with h3
      exact h3.symm
    have hA := hmax ⟨⟨"A"⟩, longTagList⟩ (by simp [longTagSubConns])
    have hmem : best ∈ longTagSubConns := List.getElem?_mem hj
    simp only [longTagSubConns, List.mem_cons, List.mem_singleton, List.not_mem_nil,
      or_false] at hmem
    rcases hmem with h | h
    · rw [h] at hA
      simp only [← currPriority_eq_sum] at hA
      rw [currPriority_longTagList, hB] at hA
      exact absurd hA (by decide)
    · rw [h] at hconn
      exact absurd hconn (by decide)

end Consul
